import Mathlib

set_option maxHeartbeats 1000000

/-!
# Verification of the har-tool capture pipeline

A shallow embedding of the har-tool repository (an HTTP(S) capture and
analysis toolkit) in Lean 4, together with proofs about its path
normalizer, sanitizer, proxy log emission, bounded body capture,
session store reading and catalog merging.

JavaScript strings are modelled as lists of characters (`Str`), records
(JS objects used as string maps) as association lists in insertion
order, and fallible operations (`JSON.parse`, `new URL`) as
`Option`-returning functions.
-/

namespace HarTool

/-- JS strings, modelled as lists of characters. -/
abbrev Str := List Char

/-- Build a `Str` from a Lean string literal. -/
def str (s : String) : Str := s.data

/-- `String.prototype.toLowerCase`, character-wise (the sources only
compare ASCII header and key names). -/
def lowerStr (s : Str) : Str := s.map Char.toLower

/-! ## PathNormalizer (src/apps/server/src/catalog.ts, `normalizePath`) -/

/-- A hex digit as matched by the character class `[0-9a-f]` under the
`i` flag. -/
def isHexDigit (c : Char) : Bool :=
  ('0' ≤ c && c ≤ '9') || ('a' ≤ c && c ≤ 'f') || ('A' ≤ c && c ≤ 'F')

/-- A decimal digit, `\d`. -/
def isDigitCh (c : Char) : Bool := '0' ≤ c && c ≤ '9'

/-- The UUID version nibble `[1-5]`. -/
def isUuidVersion (c : Char) : Bool := '1' ≤ c && c ≤ '5'

/-- The UUID variant nibble `[89ab]` under the `i` flag. -/
def isUuidVariant (c : Char) : Bool :=
  c == '8' || c == '9' || c == 'a' || c == 'b' || c == 'A' || c == 'B'

/-- `String.prototype.split(sep)` for a single-character separator:
`""` splits to `[""]`, a leading/trailing separator yields an empty
piece. -/
def splitCh (c : Char) : Str → List Str
  | [] => [[]]
  | x :: xs =>
    let r := splitCh c xs
    if x == c then [] :: r
    else
      match r with
      | [] => [[x]]
      | s :: rest => (x :: s) :: rest

/-- `Array.prototype.join(sep)` for a single-character separator. -/
def joinCh (c : Char) : List Str → Str
  | [] => []
  | [s] => s
  | s :: rest => s ++ c :: joinCh c rest

/-- The test of `/^[0-9a-f]{8}-[0-9a-f]{4}-[1-5][0-9a-f]{3}-[89ab][0-9a-f]{3}-[0-9a-f]{12}$/i`
on a path segment.  Since none of the character classes contain `-`,
the regex is equivalently the 8-4-4-4-12 shape on the `-`-separated
pieces. -/
def isUuidSeg (seg : Str) : Bool :=
  match splitCh '-' seg with
  | [a, b, c, d, e] =>
    a.length == 8 && a.all isHexDigit &&
    b.length == 4 && b.all isHexDigit &&
    (match c with
     | v :: rest => isUuidVersion v && rest.length == 3 && rest.all isHexDigit
     | [] => false) &&
    (match d with
     | v :: rest => isUuidVariant v && rest.length == 3 && rest.all isHexDigit
     | [] => false) &&
    e.length == 12 && e.all isHexDigit
  | _ => false

/-- The test of `/^[0-9a-f]{16,}$/i`: purely hex, at least 16 characters. -/
def isHashSeg (seg : Str) : Bool :=
  decide (16 ≤ seg.length) && seg.all isHexDigit

/-- The test of `/^\d+$/`: purely decimal digits, at least one. -/
def isIdSeg (seg : Str) : Bool :=
  !seg.isEmpty && seg.all isDigitCh

/-- The per-segment mapping of `normalizePath`: empty segments are kept,
otherwise the checks run in the order UUID, hash, id, else verbatim. -/
def classifySeg (seg : Str) : Str :=
  if seg.isEmpty then seg
  else if isUuidSeg seg then str ":uuid"
  else if isHashSeg seg then str ":hash"
  else if isIdSeg seg then str ":id"
  else seg

/-- `path.replace(/\/+$/, "")`: remove the maximal trailing run of `/`. -/
def dropTrailingSlashes (p : Str) : Str :=
  (p.reverse.dropWhile (fun c => c == '/')).reverse

/-- `normalizePath` from catalog.ts: strip trailing slashes when the
path is longer than one character (the `clean` binding), split on `/`,
classify each segment, join back. -/
def normalizePath (p : Str) : Str :=
  joinCh '/'
    ((splitCh '/' (if 1 < p.length then dropTrailingSlashes p else p)).map
      classifySeg)

/-- The normalizer as the claim words it: strip a SINGLE trailing `/`
except for the root, then classify segments.  (Second definition kept
for comparison with `normalizePath`.) -/
def normalizePathClaim (p : Str) : Str :=
  joinCh '/'
    ((splitCh '/'
        (if p = ['/'] then p
         else if p.getLast? == some '/' then p.dropLast else p)).map
      classifySeg)

/-- Removal of the whole trailing run of `/`, written by direct
recursion (the amended claim's wording: strip ALL trailing slashes). -/
def stripTrailingRun : Str → Str
  | [] => []
  | c :: cs =>
    match stripTrailingRun cs with
    | [] => if c == '/' then [] else [c]
    | r => c :: r

/-- The normalizer as amended: strip the maximal run of trailing
slashes (not just one) whenever the path is longer than one character,
then classify the `/`-separated segments in the order UUID, hash, id. -/
def normalizePathAmended (p : Str) : Str :=
  joinCh '/'
    ((splitCh '/' (if 1 < p.length then stripTrailingRun p else p)).map
      classifySeg)

/-! ### Lemmas about the split/join/strip machinery -/

theorem splitCh_cons (c x : Char) (xs : Str) :
    splitCh c (x :: xs) =
      if x == c then [] :: splitCh c xs
      else
        match splitCh c xs with
        | [] => [[x]]
        | s :: rest => (x :: s) :: rest := rfl

theorem mem_of_getLast?_eq {α : Type} {l : List α} {x : α}
    (h : l.getLast? = some x) : x ∈ l := by
  have hx : x ∈ l.getLast? := Option.mem_def.mpr h
  rcases List.mem_getLast?_eq_getLast hx with ⟨hne, heq⟩
  exact heq ▸ List.getLast_mem hne

theorem splitCh_ne_nil (c : Char) (l : Str) : splitCh c l ≠ [] := by
  cases l with
  | nil => simp [splitCh]
  | cons x xs =>
    simp only [splitCh]
    split
    · simp
    · match h : splitCh c xs with
      | [] => simp
      | s :: rest => simp

theorem not_mem_of_mem_splitCh {c : Char} {l : Str} {s : Str}
    (hs : s ∈ splitCh c l) : c ∉ s := by
  induction l generalizing s with
  | nil =>
    simp [splitCh] at hs
    simp [hs]
  | cons x xs ih =>
    simp only [splitCh] at hs
    by_cases hx : x = c
    · simp [hx] at hs
      rcases hs with h | h
      · simp [h]
      · exact ih h
    · simp [hx] at hs
      match hr : splitCh c xs with
      | [] => exact absurd hr (splitCh_ne_nil c xs)
      | t :: rest =>
        rw [hr] at hs
        simp at hs
        rcases hs with h | h
        · subst h
          intro hmem
          rcases List.mem_cons.mp hmem with h' | h'
          · exact hx h'.symm
          · exact ih (by rw [hr]; exact List.mem_cons_self t rest) h'
        · exact ih (by rw [hr]; exact List.mem_cons_of_mem t h)

theorem splitCh_no_sep {c : Char} {l : Str} (h : c ∉ l) :
    splitCh c l = [l] := by
  induction l with
  | nil => simp [splitCh]
  | cons x xs ih =>
    have hx : ¬(x = c) := fun hxc => h (hxc ▸ List.mem_cons_self x xs)
    have hxs : c ∉ xs := fun hm => h (List.mem_cons_of_mem x hm)
    simp only [splitCh]
    rw [if_neg (by simp [hx])]
    rw [ih hxs]

theorem splitCh_append_cons {c : Char} {s t : Str} (h : c ∉ s) :
    splitCh c (s ++ c :: t) = s :: splitCh c t := by
  induction s with
  | nil => simp [splitCh]
  | cons x xs ih =>
    have hx : ¬(x = c) := fun hxc => h (hxc ▸ List.mem_cons_self x xs)
    have hxs : c ∉ xs := fun hm => h (List.mem_cons_of_mem x hm)
    rw [List.cons_append, splitCh_cons, if_neg (by simp [hx]), ih hxs]

theorem splitCh_joinCh {c : Char} {parts : List Str} (hne : parts ≠ [])
    (hfree : ∀ s ∈ parts, c ∉ s) :
    splitCh c (joinCh c parts) = parts := by
  induction parts with
  | nil => exact absurd rfl hne
  | cons s rest ih =>
    cases rest with
    | nil =>
      simp only [joinCh]
      exact splitCh_no_sep (hfree s (List.mem_cons_self s []))
    | cons t ts =>
      have hjoin : joinCh c (s :: t :: ts) = s ++ c :: joinCh c (t :: ts) := rfl
      rw [hjoin, splitCh_append_cons (hfree s (List.mem_cons_self s _))]
      rw [ih (by simp) (fun u hu => hfree u (List.mem_cons_of_mem s hu))]

theorem dropWhile_eq_self_of_head {p : Char → Bool} {l : Str}
    (h : ∀ x, l.head? = some x → p x = false) : l.dropWhile p = l := by
  cases l with
  | nil => rfl
  | cons x xs =>
    have := h x rfl
    simp [List.dropWhile, this]

theorem dropTrailingSlashes_eq_self {l : Str} (h : l.getLast? ≠ some '/') :
    dropTrailingSlashes l = l := by
  unfold dropTrailingSlashes
  rw [dropWhile_eq_self_of_head, List.reverse_reverse]
  intro x hx
  rw [List.head?_reverse] at hx
  by_contra hb
  have hxc : x = '/' := by simpa using hb
  exact h (hxc ▸ hx)

theorem getLast?_joinCh_ne_slash {parts : List Str}
    (hfree : ∀ s ∈ parts, '/' ∉ s)
    (hlast : ∀ s, parts.getLast? = some s → s ≠ []) (hne : parts ≠ []) :
    (joinCh '/' parts).getLast? ≠ some '/' := by
  induction parts with
  | nil => exact absurd rfl hne
  | cons s rest ih =>
    cases rest with
    | nil =>
      have hjoin : (joinCh '/' [s]) = s := rfl
      rw [hjoin]
      intro hcon
      exact hfree s (by simp) (mem_of_getLast?_eq hcon)
    | cons t ts =>
      have hjoin : joinCh '/' (s :: t :: ts) = s ++ '/' :: joinCh '/' (t :: ts) := rfl
      rw [hjoin, List.getLast?_append_of_ne_nil _ (by simp)]
      match hj : joinCh '/' (t :: ts) with
      | [] =>
        exfalso
        cases ts with
        | nil => exact hlast t (by simp) (by simpa [joinCh] using hj)
        | cons z zs =>
          have hj2 : joinCh '/' (t :: z :: zs) = t ++ '/' :: joinCh '/' (z :: zs) := rfl
          rw [hj2] at hj
          simp at hj
      | y :: ys =>
        rw [List.getLast?_cons_cons, ← hj]
        exact ih (fun u hu => hfree u (List.mem_cons_of_mem s hu))
          (fun u hu => hlast u (by rw [List.getLast?_cons_cons]; exact hu))
          (by simp)

theorem classifySeg_nil : classifySeg [] = [] := rfl

theorem classifySeg_ne_nil {s : Str} (h : s ≠ []) : classifySeg s ≠ [] := by
  unfold classifySeg
  rw [if_neg (by simpa using h)]
  split
  · simp [str]
  · split
    · simp [str]
    · split
      · simp [str]
      · exact h

theorem not_slash_mem_classifySeg {s : Str} (h : '/' ∉ s) :
    '/' ∉ classifySeg s := by
  unfold classifySeg
  split
  · exact h
  · split
    · simp [str]
    · split
      · simp [str]
      · split
        · simp [str]
        · exact h

theorem classifySeg_cases (s : Str) :
    classifySeg s = s ∨ classifySeg s = str ":uuid" ∨
      classifySeg s = str ":hash" ∨ classifySeg s = str ":id" := by
  unfold classifySeg
  split
  · exact Or.inl rfl
  · split
    · exact Or.inr (Or.inl rfl)
    · split
      · exact Or.inr (Or.inr (Or.inl rfl))
      · split
        · exact Or.inr (Or.inr (Or.inr rfl))
        · exact Or.inl rfl

theorem classifySeg_idem (s : Str) :
    classifySeg (classifySeg s) = classifySeg s := by
  rcases classifySeg_cases s with h | h | h | h <;> rw [h]
  · exact h
  · decide
  · decide
  · decide

theorem splitCh_getLast_ne_nil {c : Char} {l : Str} (hne : l ≠ [])
    (hlast : l.getLast? ≠ some c) :
    ∀ s, (splitCh c l).getLast? = some s → s ≠ [] := by
  induction l with
  | nil => exact absurd rfl hne
  | cons x xs ih =>
    intro s hs
    cases xs with
    | nil =>
      have hx : ¬(x = c) := by
        intro h; exact hlast (by simp [h])
      simp only [splitCh] at hs
      rw [if_neg (by simp [hx])] at hs
      simp at hs
      simp [hs.symm]
    | cons y ys =>
      have hlast' : (y :: ys).getLast? ≠ some c := by
        intro h
        exact hlast (by rw [List.getLast?_cons_cons]; exact h)
      have htail := ih (by simp) hlast'
      rw [splitCh_cons] at hs
      by_cases hx : x = c
      · rw [if_pos (by simp [hx])] at hs
        match hr : splitCh c (y :: ys) with
        | [] => exact absurd hr (splitCh_ne_nil c _)
        | a :: as =>
          rw [hr, List.getLast?_cons_cons] at hs
          exact htail s (by rw [hr]; exact hs)
      · rw [if_neg (by simp [hx])] at hs
        match hr : splitCh c (y :: ys) with
        | [] => exact absurd hr (splitCh_ne_nil c _)
        | a :: as =>
          rw [hr] at hs
          cases as with
          | nil =>
            simp at hs
            simp [hs.symm]
          | cons b bs =>
            rw [List.getLast?_cons_cons] at hs
            exact htail s (by rw [hr, List.getLast?_cons_cons]; exact hs)

theorem dropTrailingSlashes_cons (c : Char) (cs : Str) :
    dropTrailingSlashes (c :: cs) =
      if dropTrailingSlashes cs = [] then (if c == '/' then [] else [c])
      else c :: dropTrailingSlashes cs := by
  unfold dropTrailingSlashes
  rw [List.reverse_cons, List.dropWhile_append]
  by_cases hnil : (cs.reverse.dropWhile fun c => c == '/') = []
  · rw [hnil]
    simp only [List.isEmpty_nil, if_true, List.reverse_nil, List.dropWhile]
    cases hcb : c == '/' <;> simp [hcb]
  · rw [if_neg (by simpa using hnil)]
    rw [if_neg (by simpa using hnil)]
    rw [List.reverse_append]
    simp

theorem stripTrailingRun_eq (l : Str) : stripTrailingRun l = dropTrailingSlashes l := by
  induction l with
  | nil => rfl
  | cons c cs ih =>
    simp only [stripTrailingRun, ih, dropTrailingSlashes_cons]
    by_cases hd : dropTrailingSlashes cs = []
    · simp [hd]
    · match hd2 : dropTrailingSlashes cs with
      | [] => exact absurd hd2 hd
      | r :: rs => simp [hd2]

theorem normalizePath_idem_aux {parts : List Str} (hne : parts ≠ [])
    (hfree : ∀ s ∈ parts, '/' ∉ s)
    (hfix : ∀ s ∈ parts, classifySeg s = s)
    (hlastq : (joinCh '/' parts).getLast? ≠ some '/') :
    normalizePath (joinCh '/' parts) = joinCh '/' parts := by
  unfold normalizePath
  have hclean :
      (if 1 < (joinCh '/' parts).length then dropTrailingSlashes (joinCh '/' parts)
        else joinCh '/' parts) = joinCh '/' parts := by
    split
    · exact dropTrailingSlashes_eq_self hlastq
    · rfl
  rw [hclean, splitCh_joinCh hne hfree]
  have hmap : parts.map classifySeg = parts :=
    (List.map_congr_left hfix).trans (List.map_id parts)
  rw [hmap]

theorem dropTrailingSlashes_getLast_ne {l : Str}
    (h : dropTrailingSlashes l ≠ []) :
    (dropTrailingSlashes l).getLast? ≠ some '/' := by
  have heq : dropTrailingSlashes l = List.rdropWhile (fun c => c == '/') l := rfl
  rw [List.getLast?_eq_getLast_of_ne_nil h]
  intro hcon
  have hlast := List.rdropWhile_last_not (fun c => c == '/') l (heq ▸ h)
  apply hlast
  have : (dropTrailingSlashes l).getLast h = '/' := by simpa using hcon
  simp only [← heq]
  simp [this]

/-- **C5.** Counterexample to the claim as stated: on `"/a//"` the code
strips the whole trailing run of slashes and yields `"/a"`, while
stripping a single trailing slash (the claim's wording) would yield
`"/a/"`. -/
theorem c5_counterexample :
    normalizePath (str "/a//") ≠ normalizePathClaim (str "/a//") := by decide

/-- **C5 (amended).** `normalizePath` strips the maximal run of
trailing slashes (not just one) whenever the path is longer than one
character, then replaces each non-empty `/`-separated segment with
`:uuid` / `:hash` / `:id`, checked in that order, else keeps it
verbatim. -/
theorem c5_amended (p : Str) : normalizePath p = normalizePathAmended p := by
  unfold normalizePath normalizePathAmended
  rw [stripTrailingRun_eq]

/-- **C9.** Path normalization is idempotent:
`normalize (normalize p) = normalize p` for every path `p`. -/
theorem c9_normalize_idempotent (p : Str) :
    normalizePath (normalizePath p) = normalizePath p := by
  by_cases h0 : normalizePath p = []
  · rw [h0]; decide
  by_cases h1 : normalizePath p = ['/']
  · rw [h1]; decide
  have hq : normalizePath p =
      joinCh '/'
        ((splitCh '/' (if 1 < p.length then dropTrailingSlashes p else p)).map
          classifySeg) := rfl
  set clean := if 1 < p.length then dropTrailingSlashes p else p with hcleandef
  -- the cleaned path is nonempty
  have hcne : clean ≠ [] := by
    intro hnil
    apply h0
    rw [hq, hnil]
    decide
  -- and it does not end in a slash
  have hclast : clean.getLast? ≠ some '/' := by
    by_cases hlen : 1 < p.length
    · have hce : clean = dropTrailingSlashes p := by rw [hcleandef, if_pos hlen]
      rw [hce]
      apply dropTrailingSlashes_getLast_ne
      rw [← hce]
      exact hcne
    · have hce : clean = p := by rw [hcleandef, if_neg hlen]
      rw [hce]
      intro hcon
      have hp : p = ['/'] := by
        match hp2 : p with
        | [] => simp at hcon
        | [x] =>
          simp at hcon
          rw [hcon]
        | x :: y :: rest =>
          exfalso
          apply hlen
          simp
      apply h1
      rw [hq, hcleandef, hp]
      decide
  set parts := splitCh '/' clean with hpartsdef
  have hpne : parts ≠ [] := splitCh_ne_nil '/' clean
  have hplast : ∀ s, parts.getLast? = some s → s ≠ [] :=
    splitCh_getLast_ne_nil hcne hclast
  set mapped := parts.map classifySeg with hmappeddef
  have hmne : mapped ≠ [] := by
    intro h
    exact hpne (List.map_eq_nil_iff.mp h)
  have hmfree : ∀ s ∈ mapped, '/' ∉ s := by
    intro s hs
    rcases List.mem_map.mp hs with ⟨u, hu, huc⟩
    exact huc ▸ not_slash_mem_classifySeg (not_mem_of_mem_splitCh hu)
  have hmfix : ∀ s ∈ mapped, classifySeg s = s := by
    intro s hs
    rcases List.mem_map.mp hs with ⟨u, _, huc⟩
    exact huc ▸ classifySeg_idem u
  have hmlast : ∀ s, mapped.getLast? = some s → s ≠ [] := by
    intro s hs
    rw [hmappeddef, List.getLast?_map] at hs
    match hu : parts.getLast? with
    | none => rw [hu] at hs; simp at hs
    | some u =>
      rw [hu] at hs
      simp at hs
      exact hs ▸ classifySeg_ne_nil (hplast u hu)
  have hqlast : (joinCh '/' mapped).getLast? ≠ some '/' :=
    getLast?_joinCh_ne_slash hmfree hmlast hmne
  rw [hq]
  exact normalizePath_idem_aux hmne hmfree hmfix hqlast

/-! ## Hop-by-hop header stripping (src/apps/server/src/proxy.ts, `stripHopByHop`) -/

/-- A JS header map: an association list of name/value pairs in
insertion order (JS object keys are unique; the functions below do not
require it). -/
abbrev Headers := List (Str × Str)

/-- The fixed `HOP_BY_HOP` set from proxy.ts. -/
def HOP_BY_HOP : List Str :=
  [str "connection", str "proxy-connection", str "keep-alive",
   str "transfer-encoding", str "te", str "trailer", str "upgrade"]

/-- `headers[k]`: exact-key property lookup. -/
def lookupKey (hs : Headers) (k : Str) : Option Str :=
  (hs.find? (fun kv => kv.1 == k)).map (fun kv => kv.2)

/-- `delete headers[k]`: remove the entry with exactly this key. -/
def eraseKeyExact (hs : Headers) (k : Str) : Headers :=
  hs.filter (fun kv => !(kv.1 == k))

/-- JS whitespace for `String.prototype.trim` (the ASCII part plus
NBSP/BOM; header tokens only ever contain the ASCII part). -/
def isJsWsCh (c : Char) : Bool :=
  c == ' ' || c == '\t' || c == '\n' || c == '\r' ||
  c == Char.ofNat 0x0B || c == Char.ofNat 0x0C ||
  c == Char.ofNat 0xA0 || c == Char.ofNat 0xFEFF

/-- `String.prototype.trim`. -/
def trimStr (s : Str) : Str :=
  ((s.dropWhile isJsWsCh).reverse.dropWhile isJsWsCh).reverse

/-- `String(conn).split(",").map(s => s.trim().toLowerCase()).filter(Boolean)`. -/
def connTokens (v : Str) : List Str :=
  (((splitCh ',' v).map (fun s => lowerStr (trimStr s))).filter
    (fun s => !s.isEmpty))

/-- The inbound `Connection` header value as the code reads it:
`headers["connection"] ?? headers["Connection"]`. -/
def connValue (hs : Headers) : Option Str :=
  match lookupKey hs (str "connection") with
  | some v => some v
  | none => lookupKey hs (str "Connection")

/-- The names listed by the inbound `Connection` header (empty when the
header is absent; an empty value yields no tokens, matching the JS
truthiness check `if (conn)`). -/
def connListed (hs : Headers) : List Str :=
  match connValue hs with
  | some v => connTokens v
  | none => []

/-- `stripHopByHop` from proxy.ts: delete every name listed by the
inbound `Connection` header (exact key, plus its lowercase form), then
drop every header whose lowercased name is in the fixed set, then
delete the four `connection`/`proxy-connection` spellings. -/
def stripHopByHop (hs : Headers) : Headers :=
  let hs1 :=
    match connValue hs with
    | some v =>
      (connTokens v).foldl
        (fun acc h => eraseKeyExact (eraseKeyExact acc h) (lowerStr h)) hs
    | none => hs
  let hs2 := hs1.filter (fun kv => !(HOP_BY_HOP.contains (lowerStr kv.1)))
  eraseKeyExact
    (eraseKeyExact
      (eraseKeyExact (eraseKeyExact hs2 (str "connection")) (str "Connection"))
      (str "proxy-connection"))
    (str "Proxy-Connection")

/-- The claim's property for C6, as stated: no output header lowercases
into the fixed set, and no output header's lowercase name is listed by
the inbound `Connection` value. -/
def c6ClaimProp (hs : Headers) : Prop :=
  (∀ kv ∈ stripHopByHop hs, lowerStr kv.1 ∉ HOP_BY_HOP) ∧
  (∀ kv ∈ stripHopByHop hs, lowerStr kv.1 ∉ connListed hs)

theorem mem_of_mem_eraseKeyExact {hs : Headers} {k : Str} {kv : Str × Str}
    (h : kv ∈ eraseKeyExact hs k) : kv ∈ hs ∧ kv.1 ≠ k := by
  unfold eraseKeyExact at h
  have := List.mem_filter.mp h
  refine ⟨this.1, ?_⟩
  have hb := this.2
  simp at hb
  exact hb

theorem mem_of_mem_connFold {toks : List Str} {acc : Headers} {kv : Str × Str}
    (h : kv ∈ toks.foldl
      (fun acc h => eraseKeyExact (eraseKeyExact acc h) (lowerStr h)) acc) :
    kv ∈ acc ∧ ∀ t ∈ toks, kv.1 ≠ t ∧ kv.1 ≠ lowerStr t := by
  induction toks generalizing acc with
  | nil => exact ⟨h, by simp⟩
  | cons t ts ih =>
    rw [List.foldl_cons] at h
    rcases ih h with ⟨hmem, hrest⟩
    rcases mem_of_mem_eraseKeyExact hmem with ⟨hmem2, hne2⟩
    rcases mem_of_mem_eraseKeyExact hmem2 with ⟨hmem3, hne3⟩
    refine ⟨hmem3, ?_⟩
    intro u hu
    rcases List.mem_cons.mp hu with h' | h'
    · exact ⟨h' ▸ hne3, h' ▸ hne2⟩
    · exact hrest u h'

/-- **C6.** Counterexample to the claim as stated: with inbound headers
`X-Token: v` and `Connection: X-Token`, the code deletes only the
exact keys `x-token` (the lowercased token), so the mixed-case
`X-Token` header survives even though its name is listed by
`Connection`. -/
theorem c6_counterexample :
    ¬ c6ClaimProp [(str "X-Token", str "v"), (str "Connection", str "X-Token")] := by
  intro h
  have h2 := h.2 (str "X-Token", str "v") (by decide)
  apply h2
  decide

/-- **C6 (amended).** For every inbound header map, the output of
`stripHopByHop` contains no header whose lowercased name is in the
fixed hop-by-hop set; and when every inbound header name is already
lowercase (as Node delivers incoming headers), no header whose name is
listed (comma-split, trimmed, lowercased) in the inbound `Connection`
value survives either.  Connection-listed removal matches the exact
lowercased token only, so mixed-case keys are not covered by it. -/
theorem c6_amended (hs : Headers) :
    (∀ kv ∈ stripHopByHop hs, lowerStr kv.1 ∉ HOP_BY_HOP) ∧
    ((∀ kv ∈ hs, lowerStr kv.1 = kv.1) →
      ∀ kv ∈ stripHopByHop hs, lowerStr kv.1 ∉ connListed hs) := by
  constructor
  · intro kv hkv
    unfold stripHopByHop at hkv
    rcases mem_of_mem_eraseKeyExact hkv with ⟨h1, _⟩
    rcases mem_of_mem_eraseKeyExact h1 with ⟨h2, _⟩
    rcases mem_of_mem_eraseKeyExact h2 with ⟨h3, _⟩
    rcases mem_of_mem_eraseKeyExact h3 with ⟨h4, _⟩
    have := (List.mem_filter.mp h4).2
    intro hcon
    simp at this
    exact this (by simpa using hcon)
  · intro hlower kv hkv
    unfold stripHopByHop at hkv
    rcases mem_of_mem_eraseKeyExact hkv with ⟨h1, _⟩
    rcases mem_of_mem_eraseKeyExact h1 with ⟨h2, _⟩
    rcases mem_of_mem_eraseKeyExact h2 with ⟨h3, _⟩
    rcases mem_of_mem_eraseKeyExact h3 with ⟨h4, _⟩
    have h5 := (List.mem_filter.mp h4).1
    unfold connListed
    match hc : connValue hs with
    | none => simp
    | some v =>
      rw [hc] at h5
      rcases mem_of_mem_connFold h5 with ⟨hmem, htoks⟩
      intro hcon
      have := htoks (lowerStr kv.1) hcon
      exact this.1 (hlower kv hmem).symm

/-- Witness for the amended C6: the lowercase map
`x-token: v, connection: x-token` has an empty strip result for the
listed name. -/
theorem c6_amended_witness :
    (∀ kv ∈ ([(str "x-token", str "v"), (str "connection", str "x-token")] : Headers),
        lowerStr kv.1 = kv.1) ∧
    (∀ kv ∈ stripHopByHop [(str "x-token", str "v"), (str "connection", str "x-token")],
        lowerStr kv.1 ∉ connListed [(str "x-token", str "v"), (str "connection", str "x-token")]) :=
  ⟨by decide,
   (c6_amended [(str "x-token", str "v"), (str "connection", str "x-token")]).2
     (by decide)⟩

/-! ## The LogRecord data model (packages/shared: `RequestLog`)

Optional TS fields become `Option`; `Record<string, string>` becomes an
association list in insertion order. -/

structure BodyRec where
  mime : Option Str
  text : Option Str
deriving DecidableEq

structure ReqRec where
  headers : Headers
  query : Option Headers
  body : Option BodyRec
deriving DecidableEq

structure RespRec where
  headers : Option Headers
  body : Option BodyRec
deriving DecidableEq

structure LogRecord where
  id : Str
  ts : Nat
  method : Str
  url : Str
  host : Str
  path : Str
  status : Option Nat
  durationMs : Option Nat
  request : ReqRec
  response : Option RespRec
deriving DecidableEq

/-- The pieces of a WHATWG `URL` object that the proxy reads:
`toString()` (its `href`), `host`, `pathname` and the search-params
entry list. -/
structure UrlModel where
  href : Str
  host : Str
  pathname : Str
  searchParams : Headers
deriving DecidableEq

/-- JS `a || b` on strings: the empty string is falsy. -/
def jsOrStr (a : Option Str) (b : Str) : Str :=
  match a with
  | some s => if s.isEmpty then b else s
  | none => b

/-- `Object.fromEntries`: later entries overwrite earlier ones for the
same key; key order is first-insertion order. -/
def jsSetEntry (m : Headers) (k v : Str) : Headers :=
  if (m.find? (fun kv => kv.1 == k)).isSome then
    m.map (fun kv => if kv.1 == k then (k, v) else kv)
  else m ++ [(k, v)]

def jsFromEntries (l : Headers) : Headers :=
  l.foldl (fun m kv => jsSetEntry m kv.1 kv.2) []

/-! ## Bounded body capture (proxy.ts tee, mitmProxy.ts captureLimited) -/

/-- Raw bytes on the wire. -/
abbrev Bytes := List Nat

/-- `BODY_LIMIT = 64 * 1024`. -/
def BODY_LIMIT : Nat := 64 * 1024

def replCh : Char := Char.ofNat 0xFFFD

def isCont (b : Nat) : Bool := 0x80 ≤ b && b < 0xC0

/-- How many continuation bytes a lead byte consumes, given the rest
of the stream (0 when the sequence is malformed or truncated: the lead
byte alone then yields a replacement character). -/
def contCount (b : Nat) (rest : Bytes) : Nat :=
  if b < 0x80 then 0
  else if b < 0xC2 then 0
  else if b < 0xE0 then
    match rest with
    | b2 :: _ => if isCont b2 then 1 else 0
    | [] => 0
  else if b < 0xF0 then
    match rest with
    | b2 :: b3 :: _ => if isCont b2 && isCont b3 then 2 else 0
    | _ => 0
  else if b < 0xF5 then
    match rest with
    | b2 :: b3 :: b4 :: _ => if isCont b2 && isCont b3 && isCont b4 then 3 else 0
    | _ => 0
  else 0

/-- The character produced for one lead byte. -/
def decodeOne (b : Nat) (rest : Bytes) : Char :=
  if b < 0x80 then Char.ofNat b
  else if b < 0xC2 then replCh
  else if b < 0xE0 then
    match rest with
    | b2 :: _ =>
      if isCont b2 then Char.ofNat ((b - 0xC0) * 0x40 + (b2 - 0x80)) else replCh
    | [] => replCh
  else if b < 0xF0 then
    match rest with
    | b2 :: b3 :: _ =>
      if isCont b2 && isCont b3 then
        Char.ofNat ((b - 0xE0) * 0x1000 + (b2 - 0x80) * 0x40 + (b3 - 0x80))
      else replCh
    | _ => replCh
  else if b < 0xF5 then
    match rest with
    | b2 :: b3 :: b4 :: _ =>
      if isCont b2 && isCont b3 && isCont b4 then
        Char.ofNat
          ((b - 0xF0) * 0x40000 + (b2 - 0x80) * 0x1000 + (b3 - 0x80) * 0x40 +
            (b4 - 0x80))
      else replCh
    | _ => replCh
  else replCh

/-- `Buffer.prototype.toString("utf8")`: lossy UTF-8 decode.  Exact on
well-formed input; malformed sequences become replacement characters
(at least one byte consumed per emitted character, which is the only
property the proofs use).  A supplementary code point is kept as one
scalar `Char` where a JS string would hold a surrogate pair, so the
modelled length is never larger than the JS `.length`. -/
def utf8DecodeF : Nat → Bytes → Str
  | 0, _ => []
  | _, [] => []
  | fuel + 1, b :: rest =>
    decodeOne b rest :: utf8DecodeF fuel (rest.drop (contCount b rest))

def utf8Decode (bs : Bytes) : Str := utf8DecodeF bs.length bs

/-- One `data` event of the plain-proxy tee (proxy.ts lines 127-133 and
187-193): push `chunk.subarray(0, BODY_LIMIT - size)` while
`size < BODY_LIMIT`, always count the full chunk length. -/
def teeStepChunks : (List Bytes × Nat) → Bytes → (List Bytes × Nat)
  | (chunks, size), chunk =>
    (if size < BODY_LIMIT then chunks ++ [chunk.take (BODY_LIMIT - size)]
     else chunks,
     size + chunk.length)

/-- The side buffer left after streaming a whole body through the tee. -/
def teeChunks (input : List Bytes) : List Bytes :=
  (input.foldl teeStepChunks ([], 0)).1

/-- `captureLimitedText` from proxy.ts: concatenate the teed chunks and
decode as UTF-8 (no further clamping). -/
def captureLimitedText (chunks : List Bytes) : Str :=
  utf8Decode chunks.flatten

/-- One `data` event of the MITM capture (mitmProxy.ts): push the WHOLE
chunk while the buffered total is still below the limit. -/
def mitmAccumStep (arr : List Bytes) (chunk : Bytes) : List Bytes :=
  if arr.flatten.length < BODY_LIMIT then arr ++ [chunk] else arr

def mitmChunks (input : List Bytes) : List Bytes :=
  input.foldl mitmAccumStep []

/-- `captureLimited` from mitmProxy.ts: concatenate, slice to
`BODY_LIMIT`, decode. -/
def captureLimited (chunks : List Bytes) : Str :=
  utf8Decode (chunks.flatten.take BODY_LIMIT)

/-! ## LogRecord constructors of the proxy components -/

/-- The success-path record of the plain-HTTP forward proxy
(proxy.ts lines 204-230, `upstreamRes.on("end")`). -/
def mkSuccessLog (id : Str) (ts : Nat) (methodIn : Option Str) (u : UrlModel)
    (reqHeaders : Headers) (reqChunks : List Bytes) (status : Option Nat)
    (resHeaders : Headers) (resChunks : List Bytes) (durationMs : Nat) :
    LogRecord :=
  { id := id
    ts := ts
    method := jsOrStr methodIn (str "GET")
    url := u.href
    host := u.host
    path := u.pathname
    status := status
    durationMs := some durationMs
    request :=
      { headers := reqHeaders
        query := some (jsFromEntries u.searchParams)
        body := some
          { mime := some (jsOrStr (lookupKey reqHeaders (str "content-type")) [])
            text := some (captureLimitedText (teeChunks reqChunks)) } }
    response := some
      { headers := some resHeaders
        body := some
          { mime := some (jsOrStr (lookupKey resHeaders (str "content-type")) [])
            text := some (captureLimitedText (teeChunks resChunks)) } } }

/-- The minimal failure record of the plain-HTTP forward proxy
(proxy.ts lines 269-289, `upstreamReq.on("error")`). -/
def mkErrorLog (id : Str) (ts : Nat) (methodIn : Option Str) (u : UrlModel)
    (reqHeaders : Headers) (errText : Str) (durationMs : Nat) : LogRecord :=
  { id := id
    ts := ts
    method := jsOrStr methodIn (str "GET")
    url := u.href
    host := u.host
    path := u.pathname
    status := some 502
    durationMs := some durationMs
    request :=
      { headers := reqHeaders
        query := some (jsFromEntries u.searchParams)
        body := none }
    response := some
      { headers := some []
        body := some { mime := some (str "text/plain"), text := some errText } } }

/-- Decimal digit parse used to model `Number(portStr)` on the digit
strings a CONNECT target carries (other shapes give NaN, which the
`|| 443` fallback maps to 443, modelled by `none`). -/
def parseDecimal? (s : Str) : Option Nat :=
  if !s.isEmpty && s.all isDigitCh then
    some (s.foldl (fun n c => n * 10 + (c.toNat - '0'.toNat)) 0)
  else none

/-- `Number(portStr || 443) || 443` from the CONNECT handler. -/
def connectPort (portStr : Option Str) : Nat :=
  match portStr with
  | none => 443
  | some s =>
    if s.isEmpty then 443
    else
      match parseDecimal? s with
      | some v => if v = 0 then 443 else v
      | none => 443

/-- Decimal rendering of a number in a template literal. -/
def natToStr (n : Nat) : Str := Nat.toDigits 10 n

/-- The CONNECT tunnel record (proxy.ts lines 310-336, `finish`).
Its `path` field is the literal empty string. -/
def mkConnectLog (id : Str) (ts : Nat) (reqUrl : Str) (reqHeaders : Headers)
    (status : Nat) (durationMs : Nat) : LogRecord :=
  let parts := splitCh ':' reqUrl
  let host := parts.headD []
  let port := connectPort parts[1]?
  { id := id
    ts := ts
    method := str "CONNECT"
    url := str "https://" ++ host ++ ':' :: natToStr port
    host := host ++ ':' :: natToStr port
    path := []
    status := some status
    durationMs := some durationMs
    request := { headers := reqHeaders, query := none, body := none }
    response := some
      { headers := some []
        body := some { mime := some [], text := some [] } } }

/-- The MITM record (mitmProxy.ts `onResponseEnd`); `u` is the parsed
`new URL(fullUrl)`. -/
def mkMitmLog (id : Str) (ts : Nat) (methodIn : Option Str) (fullUrl : Str)
    (u : UrlModel) (reqHeaders : Headers) (reqChunkList : List Bytes)
    (status : Option Nat) (resHeaders : Headers) (resChunkList : List Bytes)
    (durationMs : Nat) : LogRecord :=
  { id := id
    ts := ts
    method := jsOrStr methodIn (str "GET")
    url := fullUrl
    host := u.host
    path := u.pathname
    status := status
    durationMs := some durationMs
    request :=
      { headers := reqHeaders
        query := some (jsFromEntries u.searchParams)
        body := some
          { mime := some (jsOrStr (lookupKey reqHeaders (str "content-type")) [])
            text := some (captureLimited (mitmChunks reqChunkList)) } }
    response := some
      { headers := some resHeaders
        body := some
          { mime := some (jsOrStr (lookupKey resHeaders (str "content-type")) [])
            text := some (captureLimited (mitmChunks resChunkList)) } } }

/-! ## C2: non-empty core fields of emitted records -/

/-- The claim's invariant: `url`, `host`, `path`, `method`, `id`, `ts`
are never empty (the numeric `ts` reads as nonzero wall time). -/
def logCoreNonempty (l : LogRecord) : Prop :=
  l.url ≠ [] ∧ l.host ≠ [] ∧ l.path ≠ [] ∧ l.method ≠ [] ∧ l.id ≠ [] ∧ l.ts ≠ 0

theorem jsOrStr_ne_nil {a : Option Str} {b : Str} (hb : b ≠ []) :
    jsOrStr a b ≠ [] := by
  match a with
  | none => exact hb
  | some s =>
    show (if s.isEmpty then b else s) ≠ []
    by_cases hs : s.isEmpty
    · rw [if_pos hs]; exact hb
    · rw [if_neg hs]; simpa using hs

theorem mkConnectLog_fields (id : Str) (ts : Nat) (reqUrl : Str)
    (reqHeaders : Headers) (status durationMs : Nat) :
    (mkConnectLog id ts reqUrl reqHeaders status durationMs).url ≠ [] ∧
    (mkConnectLog id ts reqUrl reqHeaders status durationMs).host ≠ [] ∧
    (mkConnectLog id ts reqUrl reqHeaders status durationMs).method ≠ [] ∧
    (mkConnectLog id ts reqUrl reqHeaders status durationMs).path = [] := by
  refine ⟨?_, ?_, ?_, rfl⟩ <;> simp [mkConnectLog, str]

/-- **C2.** Counterexample to the claim as stated: the CONNECT tunnel
record is emitted with `path: ""`, so its `path` field is empty. -/
theorem c2_counterexample :
    ¬ logCoreNonempty (mkConnectLog (str "x") 1 (str "example.com:443") [] 200 5) := by
  intro h
  exact h.2.2.1 rfl

/-- **C2 (amended).** For plain-HTTP success and failure records the
six core fields are non-empty whenever the generated id is non-empty,
the wall clock is positive and the parsed target URL has non-empty
`href`, `host` and `pathname` (always true for the `http:`/`https:`
URLs the proxy accepts); the CONNECT tunnel record has non-empty `url`,
`host`, `method`, `id`, `ts`, but its `path` is the empty string. -/
theorem c2_amended (id : Str) (ts : Nat) (methodIn : Option Str) (u : UrlModel)
    (reqHeaders : Headers) (reqChunks : List Bytes) (status : Option Nat)
    (resHeaders : Headers) (resChunks : List Bytes) (durationMs : Nat)
    (errText : Str) (reqUrl : Str) (connStatus : Nat)
    (hid : id ≠ []) (hts : 0 < ts) (hhref : u.href ≠ []) (hhost : u.host ≠ [])
    (hpath : u.pathname ≠ []) :
    logCoreNonempty
        (mkSuccessLog id ts methodIn u reqHeaders reqChunks status resHeaders
          resChunks durationMs) ∧
    logCoreNonempty (mkErrorLog id ts methodIn u reqHeaders errText durationMs) ∧
    ((mkConnectLog id ts reqUrl reqHeaders connStatus durationMs).url ≠ [] ∧
      (mkConnectLog id ts reqUrl reqHeaders connStatus durationMs).host ≠ [] ∧
      (mkConnectLog id ts reqUrl reqHeaders connStatus durationMs).method ≠ [] ∧
      (mkConnectLog id ts reqUrl reqHeaders connStatus durationMs).id ≠ [] ∧
      (mkConnectLog id ts reqUrl reqHeaders connStatus durationMs).ts ≠ 0 ∧
      (mkConnectLog id ts reqUrl reqHeaders connStatus durationMs).path = []) := by
  have htsne : ts ≠ 0 := Nat.pos_iff_ne_zero.mp hts
  have hc := mkConnectLog_fields id ts reqUrl reqHeaders connStatus durationMs
  exact ⟨⟨hhref, hhost, hpath, jsOrStr_ne_nil (by decide), hid, htsne⟩,
    ⟨hhref, hhost, hpath, jsOrStr_ne_nil (by decide), hid, htsne⟩,
    hc.1, hc.2.1, hc.2.2.1, hid, htsne, hc.2.2.2⟩

/-- Witness for the amended C2 at concrete inputs. -/
theorem c2_amended_witness :
    logCoreNonempty
      (mkSuccessLog (str "id1") 7 (some (str "POST"))
        ⟨str "http://h/x", str "h", str "/x", []⟩ [] [] (some 200) [] [] 5) ∧
    (mkConnectLog (str "id1") 7 (str "example.com:443") [] 200 5).path = [] := by
  have h := c2_amended (str "id1") 7 (some (str "POST"))
    ⟨str "http://h/x", str "h", str "/x", []⟩ [] [] (some 200) [] [] 5
    [] (str "example.com:443") 200 (by decide) (by decide) (by decide)
    (by decide) (by decide)
  exact ⟨h.1, h.2.2.2.2.2.2.2⟩

/-! ## C3: per-exchange terminal events of the plain-HTTP proxy

The handlers installed for one exchange (proxy.ts lines 135-290) form a
small state machine.  Events: the upstream response arriving (`headers`
— mirrors `writeHead` to the client), the upstream response body ending
(`endEv`), an error on the upstream response stream (`resError`), and
an error on the upstream request (`reqError`).  The 15-second timeout
destroys the upstream request with an `ETIMEDOUT` error, so it surfaces
as `reqError`. -/

inductive ProxyEv where
  | headers
  | endEv
  | resError
  | reqError
deriving DecidableEq, Repr

structure ExchangeState where
  done : Bool
  headersSent : Bool
  emitted : Nat
  failSent : Nat
deriving DecidableEq, Repr

def initExchange : ExchangeState :=
  { done := false, headersSent := false, emitted := 0, failSent := 0 }

/-- `safeFail`: run at most once (the `finishOnce` guard); write the 502
response only when headers have not been sent yet. -/
def safeFail (s : ExchangeState) : ExchangeState :=
  if s.done then s
  else if s.headersSent then { s with done := true }
  else { s with done := true, failSent := s.failSent + 1 }

/-- One event step, as the handlers are written:
* `headers`: `clientRes.writeHead` mirrors the upstream status;
* `endEv`: guarded by `finishOnce`, emits the full record;
* `resError`: calls `safeFail` only — NO record is pushed;
* `reqError`: calls `safeFail`, then pushes the minimal record
  UNCONDITIONALLY (the best-effort push sits outside the guard). -/
def stepExchange (s : ExchangeState) : ProxyEv → ExchangeState
  | ProxyEv.headers => { s with headersSent := true }
  | ProxyEv.endEv =>
    if s.done then s else { s with done := true, emitted := s.emitted + 1 }
  | ProxyEv.resError => safeFail s
  | ProxyEv.reqError =>
    let s1 := safeFail s
    { s1 with emitted := s1.emitted + 1 }

def runExchange (evs : List ProxyEv) : ExchangeState :=
  evs.foldl stepExchange initExchange

/-- The first terminal (non-`headers`) event of a trace. -/
def firstTerminal (evs : List ProxyEv) : Option ProxyEv :=
  (evs.filter (fun e => !(e == ProxyEv.headers))).head?

theorem stepExchange_emitted_formula (evs : List ProxyEv) :
    ∀ s : ExchangeState,
      (evs.foldl stepExchange s).emitted =
        s.emitted +
          (if s.done = false ∧ firstTerminal evs = some ProxyEv.endEv then 1 else 0) +
          evs.count ProxyEv.reqError := by
  induction evs with
  | nil => intro s; simp [firstTerminal]
  | cons e es ih =>
    intro s
    rw [List.foldl_cons, ih (stepExchange s e)]
    cases e with
    | headers =>
      rw [show firstTerminal (ProxyEv.headers :: es) = firstTerminal es from rfl]
      simp [stepExchange, List.count_cons]
    | endEv =>
      rw [show firstTerminal (ProxyEv.endEv :: es) = some ProxyEv.endEv from rfl]
      cases hd : s.done <;>
        simp [stepExchange, hd, List.count_cons]
    | resError =>
      rw [show firstTerminal (ProxyEv.resError :: es) = some ProxyEv.resError from rfl]
      cases hd : s.done
      · cases hh : s.headersSent <;>
          simp [stepExchange, safeFail, hd, hh, List.count_cons]
      · simp [stepExchange, safeFail, hd, List.count_cons]
    | reqError =>
      rw [show firstTerminal (ProxyEv.reqError :: es) = some ProxyEv.reqError from rfl]
      cases hd : s.done
      · cases hh : s.headersSent <;>
          simp [stepExchange, safeFail, hd, hh, List.count_cons] <;> omega
      · simp [stepExchange, safeFail, hd, List.count_cons]
        omega

theorem stepExchange_failSent_le (evs : List ProxyEv) :
    ∀ s : ExchangeState,
      (evs.foldl stepExchange s).failSent ≤
        s.failSent + (if s.done then 0 else 1) := by
  induction evs with
  | nil =>
    intro s
    rw [List.foldl_nil]
    split <;> omega
  | cons e es ih =>
    intro s
    rw [List.foldl_cons]
    refine le_trans (ih (stepExchange s e)) ?_
    cases e with
    | headers => simp [stepExchange]
    | endEv =>
      cases hd : s.done <;> simp [stepExchange, hd]
    | resError =>
      cases hd : s.done
      · cases hh : s.headersSent <;> simp [stepExchange, safeFail, hd, hh]
      · simp [stepExchange, safeFail, hd]
    | reqError =>
      cases hd : s.done
      · cases hh : s.headersSent <;> simp [stepExchange, safeFail, hd, hh]
      · simp [stepExchange, safeFail, hd]

/-- **C3.** Counterexample to the claim as stated: in the realistic
trace where the upstream response arrives and then its stream errors
mid-body (connection reset), a terminal failure is chosen (the guard
fires) but NO record is emitted — not exactly one. -/
theorem c3_counterexample :
    (runExchange [ProxyEv.headers, ProxyEv.resError]).emitted ≠ 1 := by decide

/-- **C3 (amended).** Per exchange, the client-facing failure response
is written at most once (the `finishOnce` guard), but record emission
is NOT exactly-once: a success end emits one full record iff it is the
first terminal event, each upstream-request error (or timeout) pushes
one minimal record unconditionally — even after a success — and an
upstream-response stream error emits nothing.  In particular a trace
whose only terminal event is a success end or a request error emits
exactly one record, and a response-error-only trace emits none. -/
theorem c3_amended (evs : List ProxyEv) :
    (runExchange evs).emitted =
      (if firstTerminal evs = some ProxyEv.endEv then 1 else 0) +
        evs.count ProxyEv.reqError ∧
    (runExchange evs).failSent ≤ 1 := by
  constructor
  · have h := stepExchange_emitted_formula evs initExchange
    rw [runExchange, h]
    simp [initExchange]
  · have h := stepExchange_failSent_le evs initExchange
    rw [runExchange]
    simpa [initExchange] using h

/-! ## C4: captured body text is bounded by 64 KiB -/

/-- The decoder emits at most one character per consumed byte (and per
spent unit of fuel). -/
theorem utf8DecodeF_length_le (fuel : Nat) :
    ∀ bs : Bytes, (utf8DecodeF fuel bs).length ≤ bs.length := by
  induction fuel with
  | zero => intro bs; simp [utf8DecodeF]
  | succ n ih =>
    intro bs
    match bs with
    | [] => simp [utf8DecodeF]
    | b :: rest =>
      rw [utf8DecodeF]
      simp only [List.length_cons]
      have h1 := ih (rest.drop (contCount b rest))
      have h2 := List.length_drop (contCount b rest) rest
      omega

theorem utf8Decode_length_le (bs : Bytes) :
    (utf8Decode bs).length ≤ bs.length := utf8DecodeF_length_le bs.length bs

theorem teeFold_flatten_len (input : List Bytes) :
    ∀ (chunks : List Bytes) (size : Nat),
      chunks.flatten.length = min size BODY_LIMIT →
      (input.foldl teeStepChunks (chunks, size)).1.flatten.length =
        min (input.foldl teeStepChunks (chunks, size)).2 BODY_LIMIT := by
  induction input with
  | nil => intro chunks size h; simpa using h
  | cons c cs ih =>
    intro chunks size h
    rw [List.foldl_cons]
    have hstep : teeStepChunks (chunks, size) c =
        (if size < BODY_LIMIT then chunks ++ [c.take (BODY_LIMIT - size)]
          else chunks,
         size + c.length) := rfl
    rw [hstep]
    by_cases hlt : size < BODY_LIMIT
    · rw [if_pos hlt]
      apply ih
      simp [List.length_take, h]
      omega
    · rw [if_neg hlt]
      apply ih
      rw [h]
      omega

theorem teeChunks_flatten_len (input : List Bytes) :
    (teeChunks input).flatten.length ≤ BODY_LIMIT := by
  have h := teeFold_flatten_len input [] 0 (by simp)
  unfold teeChunks
  rw [h]
  exact Nat.min_le_right _ _

theorem captureLimitedText_teeChunks_le (input : List Bytes) :
    (captureLimitedText (teeChunks input)).length ≤ BODY_LIMIT := by
  unfold captureLimitedText
  exact le_trans (utf8Decode_length_le _) (teeChunks_flatten_len input)

theorem captureLimited_le (chunks : List Bytes) :
    (captureLimited chunks).length ≤ BODY_LIMIT := by
  unfold captureLimited
  refine le_trans (utf8Decode_length_le _) ?_
  rw [List.length_take]
  exact Nat.min_le_left _ _

/-- Body text length of an optional body. -/
def bodyTextLen : Option BodyRec → Nat
  | some b => (b.text.getD []).length
  | none => 0

def reqBodyTextLen (l : LogRecord) : Nat := bodyTextLen l.request.body

def respBodyTextLen (l : LogRecord) : Nat :=
  match l.response with
  | some r => bodyTextLen r.body
  | none => 0

/-- **C4.** In both the plain-HTTP forward proxy and the MITM proxy,
the captured request and response body texts never exceed 65536
characters, for every possible chunk stream. -/
theorem c4_body_capture_bounded (id : Str) (ts : Nat) (methodIn : Option Str)
    (u : UrlModel) (reqHeaders : Headers) (reqChunks : List Bytes)
    (status : Option Nat) (resHeaders : Headers) (resChunks : List Bytes)
    (durationMs : Nat) (fullUrl : Str) :
    reqBodyTextLen
        (mkSuccessLog id ts methodIn u reqHeaders reqChunks status resHeaders
          resChunks durationMs) ≤ 65536 ∧
    respBodyTextLen
        (mkSuccessLog id ts methodIn u reqHeaders reqChunks status resHeaders
          resChunks durationMs) ≤ 65536 ∧
    reqBodyTextLen
        (mkMitmLog id ts methodIn fullUrl u reqHeaders reqChunks status
          resHeaders resChunks durationMs) ≤ 65536 ∧
    respBodyTextLen
        (mkMitmLog id ts methodIn fullUrl u reqHeaders reqChunks status
          resHeaders resChunks durationMs) ≤ 65536 := by
  refine ⟨?_, ?_, ?_, ?_⟩
  · exact captureLimitedText_teeChunks_le reqChunks
  · exact captureLimitedText_teeChunks_le resChunks
  · exact captureLimited_le (mitmChunks reqChunks)
  · exact captureLimited_le (mitmChunks resChunks)

/-! ## JSON values, `JSON.parse` and `JSON.stringify`

JSON trees use custom list types (`JsonArr`, `JsonObj`) so that all
recursion over them is structural.  Numbers keep their source lexeme:
no claim observes numeric normalization. -/

mutual

inductive Json where
  | jnull
  | jbool (b : Bool)
  | jnum (lexeme : Str)
  | jstr (s : Str)
  | jarr (xs : JsonArr)
  | jobj (kvs : JsonObj)
deriving DecidableEq

inductive JsonArr where
  | anil
  | acons (hd : Json) (tl : JsonArr)
deriving DecidableEq

inductive JsonObj where
  | onil
  | ocons (k : Str) (v : Json) (tl : JsonObj)
deriving DecidableEq

end

/-- The whitespace accepted by `JSON.parse` between tokens. -/
def isJsonWs (c : Char) : Bool :=
  c == ' ' || c == '\t' || c == '\n' || c == '\r'

def skipWs (s : Str) : Str := s.dropWhile isJsonWs

def hexDigitVal (c : Char) : Nat :=
  if '0' ≤ c && c ≤ '9' then c.toNat - '0'.toNat
  else if 'a' ≤ c && c ≤ 'f' then c.toNat - 'a'.toNat + 10
  else c.toNat - 'A'.toNat + 10

/-- The body of a JSON string after the opening quote: decode escapes,
reject raw control characters, stop at the closing quote. -/
def parseStringBody : Str → Option (Str × Str)
  | [] => none
  | '"' :: rest => some ([], rest)
  | '\\' :: esc =>
    match esc with
    | [] => none
    | 'u' :: h1 :: h2 :: h3 :: h4 :: rest =>
      if isHexDigit h1 && isHexDigit h2 && isHexDigit h3 && isHexDigit h4 then
        match parseStringBody rest with
        | some (s, r) =>
          some (Char.ofNat
            (((hexDigitVal h1 * 16 + hexDigitVal h2) * 16 + hexDigitVal h3) * 16 +
              hexDigitVal h4) :: s, r)
        | none => none
      else none
    | e :: rest =>
      let c? : Option Char :=
        if e == '"' then some '"'
        else if e == '\\' then some '\\'
        else if e == '/' then some '/'
        else if e == 'b' then some (Char.ofNat 8)
        else if e == 'f' then some (Char.ofNat 12)
        else if e == 'n' then some '\n'
        else if e == 'r' then some '\r'
        else if e == 't' then some '\t'
        else none
      match c? with
      | some c =>
        match parseStringBody rest with
        | some (s, r) => some (c :: s, r)
        | none => none
      | none => none
  | c :: rest =>
    if c.toNat < 0x20 then none
    else
      match parseStringBody rest with
      | some (s, r) => some (c :: s, r)
      | none => none

/-- `-?(0|[1-9][0-9]*)(\.[0-9]+)?([eE][+-]?[0-9]+)?`, kept as a lexeme. -/
def parseNumber (s : Str) : Option (Str × Str) :=
  let (neg, s1) :=
    match s with
    | '-' :: r => (['-'], r)
    | _ => ([], s)
  match s1 with
  | [] => none
  | c :: _ =>
    if !isDigitCh c then none
    else
      let intPart := s1.takeWhile isDigitCh
      let s2 := s1.dropWhile isDigitCh
      if 1 < intPart.length && intPart.headD '0' == '0' then none
      else
        let (frac, s3) :=
          match s2 with
          | '.' :: r =>
            let ds := r.takeWhile isDigitCh
            if ds.isEmpty then ([], '.' :: r)
            else ('.' :: ds, r.dropWhile isDigitCh)
          | _ => ([], s2)
        if frac.isEmpty && (match s2 with | '.' :: _ => true | _ => false) then none
        else
          let (ex, s4) :=
            match s3 with
            | e :: r =>
              if e == 'e' || e == 'E' then
                let (sgn, r2) :=
                  match r with
                  | '+' :: rr => (['+'], rr)
                  | '-' :: rr => (['-'], rr)
                  | _ => ([], r)
                let ds := r2.takeWhile isDigitCh
                if ds.isEmpty then ([], s3)
                else (e :: (sgn ++ ds), r2.dropWhile isDigitCh)
              else ([], s3)
            | [] => ([], s3)
          if (match s3 with
              | e :: r =>
                (e == 'e' || e == 'E') &&
                  (let r2 :=
                    match r with
                    | '+' :: rr => rr
                    | '-' :: rr => rr
                    | _ => r
                  (r2.takeWhile isDigitCh).isEmpty)
              | [] => false) then none
          else some (neg ++ intPart ++ frac ++ ex, s4)

mutual

/-- One JSON value, fuel-bounded recursive descent. -/
def parseValue : Nat → Str → Option (Json × Str)
  | 0, _ => none
  | fuel + 1, s =>
    match skipWs s with
    | [] => none
    | 'n' :: 'u' :: 'l' :: 'l' :: rest => some (Json.jnull, rest)
    | 't' :: 'r' :: 'u' :: 'e' :: rest => some (Json.jbool true, rest)
    | 'f' :: 'a' :: 'l' :: 's' :: 'e' :: rest => some (Json.jbool false, rest)
    | '"' :: rest =>
      match parseStringBody rest with
      | some (str1, r) => some (Json.jstr str1, r)
      | none => none
    | '[' :: rest =>
      (match skipWs rest with
       | ']' :: r2 => some (Json.jarr JsonArr.anil, r2)
       | _ =>
         match parseArrItems fuel rest with
         | some (xs, r2) => some (Json.jarr xs, r2)
         | none => none)
    | '{' :: rest =>
      (match skipWs rest with
       | '}' :: r2 => some (Json.jobj JsonObj.onil, r2)
       | _ =>
         match parseObjMembers fuel rest with
         | some (kvs, r2) => some (Json.jobj kvs, r2)
         | none => none)
    | other =>
      match parseNumber other with
      | some (lex, r) => some (Json.jnum lex, r)
      | none => none

/-- `value (, value)* ]` -/
def parseArrItems : Nat → Str → Option (JsonArr × Str)
  | 0, _ => none
  | fuel + 1, s =>
    match parseValue fuel s with
    | some (v, r) =>
      (match skipWs r with
       | ',' :: r2 =>
         (match parseArrItems fuel r2 with
          | some (xs, r3) => some (JsonArr.acons v xs, r3)
          | none => none)
       | ']' :: r2 => some (JsonArr.acons v JsonArr.anil, r2)
       | _ => none)
    | none => none

/-- `"key" : value (, "key" : value)* }` -/
def parseObjMembers : Nat → Str → Option (JsonObj × Str)
  | 0, _ => none
  | fuel + 1, s =>
    match skipWs s with
    | '"' :: rest =>
      (match parseStringBody rest with
       | some (k, r) =>
         (match skipWs r with
          | ':' :: r2 =>
            (match parseValue fuel r2 with
             | some (v, r3) =>
               (match skipWs r3 with
                | ',' :: r4 =>
                  (match parseObjMembers fuel r4 with
                   | some (kvs, r5) => some (JsonObj.ocons k v kvs, r5)
                   | none => none)
                | '}' :: r4 => some (JsonObj.ocons k v JsonObj.onil, r4)
                | _ => none)
             | none => none)
          | _ => none)
       | none => none)
    | _ => none

end

/-- `JSON.parse`: one complete value, with only whitespace allowed
after it.  The fuel `s.length + 2` covers any input: every recursive
call consumes at least one character of the remaining text. -/
def parseJson (s : Str) : Option Json :=
  match parseValue (s.length + 2) s with
  | some (j, rest) => if (skipWs rest).isEmpty then some j else none
  | none => none

/-- The escaping of `JSON.stringify` for string values. -/
def escapeJsonChar (c : Char) : Str :=
  if c == '"' then ['\\', '"']
  else if c == '\\' then ['\\', '\\']
  else if c == '\n' then ['\\', 'n']
  else if c == '\r' then ['\\', 'r']
  else if c == '\t' then ['\\', 't']
  else if c == Char.ofNat 8 then ['\\', 'b']
  else if c == Char.ofNat 12 then ['\\', 'f']
  else if c.toNat < 0x20 then
    ['\\', 'u', '0', '0',
     (if c.toNat / 16 < 10 then Char.ofNat ('0'.toNat + c.toNat / 16)
      else Char.ofNat ('a'.toNat + c.toNat / 16 - 10)),
     (if c.toNat % 16 < 10 then Char.ofNat ('0'.toNat + c.toNat % 16)
      else Char.ofNat ('a'.toNat + c.toNat % 16 - 10))]
  else [c]

def quoteJsonString (s : Str) : Str :=
  '"' :: (s.flatMap escapeJsonChar) ++ ['"']

def indentSp (n : Nat) : Str := List.replicate n ' '

mutual

/-- `JSON.stringify(v, null, 2)`: pretty printing with two-space
indentation, `ind` being the current indentation level. -/
def stringifyJson : Nat → Json → Str
  | _, Json.jnull => str "null"
  | _, Json.jbool true => str "true"
  | _, Json.jbool false => str "false"
  | _, Json.jnum lex => lex
  | _, Json.jstr s => quoteJsonString s
  | _, Json.jarr JsonArr.anil => str "[]"
  | ind, Json.jarr xs =>
    '[' :: '\n' :: stringifyArr (ind + 2) xs ++
      '\n' :: indentSp ind ++ [']']
  | _, Json.jobj JsonObj.onil => str "\x7b\x7d"
  | ind, Json.jobj kvs =>
    '\x7b' :: '\n' :: stringifyObj (ind + 2) kvs ++
      '\n' :: indentSp ind ++ ['\x7d']

def stringifyArr : Nat → JsonArr → Str
  | _, JsonArr.anil => []
  | ind, JsonArr.acons hd JsonArr.anil => indentSp ind ++ stringifyJson ind hd
  | ind, JsonArr.acons hd tl =>
    indentSp ind ++ stringifyJson ind hd ++ ',' :: '\n' :: stringifyArr ind tl

def stringifyObj : Nat → JsonObj → Str
  | _, JsonObj.onil => []
  | ind, JsonObj.ocons k v JsonObj.onil =>
    indentSp ind ++ quoteJsonString k ++ ':' :: ' ' :: stringifyJson ind v
  | ind, JsonObj.ocons k v tl =>
    indentSp ind ++ quoteJsonString k ++ ':' :: ' ' :: stringifyJson ind v ++
      ',' :: '\n' :: stringifyObj ind tl

end

/-! ## Sanitizer (src/apps/server/src/sanitize.ts) -/

def DEFAULT_MASK : Str := str "***redacted***"

def SENSITIVE_HEADERS : List Str :=
  [str "authorization", str "proxy-authorization", str "cookie",
   str "set-cookie", str "x-api-key", str "x-auth-token",
   str "x-csrf-token", str "x-xsrf-token", str "x-amz-security-token"]

def SENSITIVE_QUERY_KEYS : List Str :=
  [str "token", str "access_token", str "refresh_token", str "id_token",
   str "api_key", str "apikey", str "key", str "code", str "password",
   str "passwd", str "secret", str "signature", str "sig"]

def SENSITIVE_JSON_KEY_PATTERNS : List Str :=
  [str "password", str "passwd", str "secret", str "token", str "refresh",
   str "access", str "authorization", str "cookie", str "apikey",
   str "api_key", str "session", str "csrf", str "xsrf"]

/-- `String.prototype.includes`. -/
def containsSub (needle hay : Str) : Bool :=
  hay.tails.any (fun t => needle.isPrefixOf t)

/-- `maskHeaders`: mask the value when the lowercased name is in the
sensitive set, keep the key spelling. -/
def maskHeaders (hs : Headers) : Headers :=
  hs.map (fun kv =>
    (kv.1,
     if SENSITIVE_HEADERS.contains (lowerStr kv.1) then DEFAULT_MASK else kv.2))

def maskHeadersOpt : Option Headers → Option Headers :=
  Option.map maskHeaders

/-- The sensitive-query hit test: `key === s || key.endsWith("_" + s)
|| key.includes(s)`. -/
def queryKeyHit (key : Str) : Bool :=
  SENSITIVE_QUERY_KEYS.any (fun s =>
    key == s || ('_' :: s).isSuffixOf key || containsSub s key)

def maskQuery (q : Headers) : Headers :=
  q.map (fun kv =>
    (kv.1, if queryKeyHit (lowerStr kv.1) then DEFAULT_MASK else kv.2))

def maskQueryOpt : Option Headers → Option Headers :=
  Option.map maskQuery

/-- `shouldMaskJsonKey`: lowercased key equals or contains a pattern. -/
def shouldMaskJsonKey (k : Str) : Bool :=
  SENSITIVE_JSON_KEY_PATTERNS.any (fun p =>
    lowerStr k == p || containsSub p (lowerStr k))

mutual

/-- `deepMaskJson`: arrays map recursively; in objects a sensitive key
replaces the entire sub-value with the mask; scalars pass through. -/
def deepMaskJson : Json → Json
  | Json.jarr xs => Json.jarr (deepMaskArr xs)
  | Json.jobj kvs => Json.jobj (deepMaskObj kvs)
  | v => v

def deepMaskArr : JsonArr → JsonArr
  | JsonArr.anil => JsonArr.anil
  | JsonArr.acons hd tl => JsonArr.acons (deepMaskJson hd) (deepMaskArr tl)

def deepMaskObj : JsonObj → JsonObj
  | JsonObj.onil => JsonObj.onil
  | JsonObj.ocons k v tl =>
    JsonObj.ocons k
      (if shouldMaskJsonKey k then Json.jstr DEFAULT_MASK else deepMaskJson v)
      (deepMaskObj tl)

end

mutual

/-- No sub-value under a sensitive key survives: every sensitive object
entry is exactly the mask string, and everything else is recursively
clean. -/
def maskedOk : Json → Bool
  | Json.jarr xs => maskedOkArr xs
  | Json.jobj kvs => maskedOkObj kvs
  | _ => true

def maskedOkArr : JsonArr → Bool
  | JsonArr.anil => true
  | JsonArr.acons hd tl => maskedOk hd && maskedOkArr tl

def maskedOkObj : JsonObj → Bool
  | JsonObj.onil => true
  | JsonObj.ocons k v tl =>
    (if shouldMaskJsonKey k then v == Json.jstr DEFAULT_MASK else maskedOk v) &&
      maskedOkObj tl

end

/-- `maskJsonText`: parse, mask, restringify; on parse failure return
the text unchanged. -/
def maskJsonText (text : Str) : Str :=
  match parseJson text with
  | some j => stringifyJson 0 (deepMaskJson j)
  | none => text

/-! ### `URLSearchParams` (used by the form-urlencoded branch) -/

/-- UTF-8 bytes of one character. -/
def charUtf8 (c : Char) : Bytes :=
  let n := c.toNat
  if n < 0x80 then [n]
  else if n < 0x800 then [0xC0 + n / 0x40, 0x80 + n % 0x40]
  else if n < 0x10000 then
    [0xE0 + n / 0x1000, 0x80 + n / 0x40 % 0x40, 0x80 + n % 0x40]
  else
    [0xF0 + n / 0x40000, 0x80 + n / 0x1000 % 0x40, 0x80 + n / 0x40 % 0x40,
     0x80 + n % 0x40]

def strUtf8 (s : Str) : Bytes := s.flatMap charUtf8

/-- `application/x-www-form-urlencoded` percent-decoding to bytes:
`+` is a space, `%XX` a byte, anything else its UTF-8 bytes. -/
def percentDecodeBytes : Str → Bytes
  | [] => []
  | '+' :: rest => 0x20 :: percentDecodeBytes rest
  | '%' :: h1 :: h2 :: rest2 =>
    if isHexDigit h1 && isHexDigit h2 then
      (hexDigitVal h1 * 16 + hexDigitVal h2) :: percentDecodeBytes rest2
    else charUtf8 '%' ++ percentDecodeBytes (h1 :: h2 :: rest2)
  | '%' :: rest => charUtf8 '%' ++ percentDecodeBytes rest
  | c :: rest => charUtf8 c ++ percentDecodeBytes rest

def formDecodePiece (s : Str) : Str := utf8Decode (percentDecodeBytes s)

/-- Split one `name=value` piece at the first `=`. -/
def breakAtEq : Str → Str × Option Str
  | [] => ([], none)
  | '=' :: rest => ([], some rest)
  | c :: rest =>
    let (a, b) := breakAtEq rest
    (c :: a, b)

/-- `new URLSearchParams(text)`: split on `&`, drop empty pieces, split
each at the first `=`, percent-decode names and values. -/
def parseFormPairs (text : Str) : Headers :=
  ((splitCh '&' text).filter (fun p => !p.isEmpty)).map (fun p =>
    let (name, value) := breakAtEq p
    (formDecodePiece name, formDecodePiece (value.getD [])))

/-- `URLSearchParams.prototype.set`: overwrite the first entry with the
key, drop any later duplicates (append when absent). -/
def uspSetGo (k v : Str) : Headers → Headers
  | [] => []
  | kv :: rest =>
    if kv.1 == k then (k, v) :: rest.filter (fun kv2 => !(kv2.1 == k))
    else kv :: uspSetGo k v rest

def uspSet (pairs : Headers) (k v : Str) : Headers :=
  if pairs.any (fun kv => kv.1 == k) then uspSetGo k v pairs
  else pairs ++ [(k, v)]

/-- The byte-level serializer of `URLSearchParams.prototype.toString`:
alphanumerics and `*-._` stay, space becomes `+`, the rest `%XX`. -/
def urlencodeByte (b : Nat) : Str :=
  if (0x30 ≤ b && b ≤ 0x39) || (0x41 ≤ b && b ≤ 0x5A) ||
      (0x61 ≤ b && b ≤ 0x7A) || b == 0x2A || b == 0x2D || b == 0x2E ||
      b == 0x5F then
    [Char.ofNat b]
  else if b == 0x20 then ['+']
  else
    ['%',
     (if b / 16 < 10 then Char.ofNat ('0'.toNat + b / 16)
      else Char.ofNat ('A'.toNat + b / 16 - 10)),
     (if b % 16 < 10 then Char.ofNat ('0'.toNat + b % 16)
      else Char.ofNat ('A'.toNat + b % 16 - 10))]

def formEncodePiece (s : Str) : Str := (strUtf8 s).flatMap urlencodeByte

def serializeForm (pairs : Headers) : Str :=
  joinCh '&'
    (pairs.map (fun kv => formEncodePiece kv.1 ++ '=' :: formEncodePiece kv.2))

/-! ### `maskBody` and `sanitizeLog` -/

/-- The JSON-branch condition of `maskBody`: the lowercased MIME
contains `application/json`, or the trimmed text starts with `{` or
`[`. -/
def jsonCondB (body : BodyRec) : Bool :=
  containsSub (str "application/json") (lowerStr (body.mime.getD [])) ||
  (match (trimStr (body.text.getD [])).head? with
   | some c => c == '\x7b' || c == '['
   | none => false)

/-- The form-branch condition of `maskBody`. -/
def isFormMime (body : BodyRec) : Bool :=
  containsSub (str "application/x-www-form-urlencoded")
    (lowerStr (body.mime.getD []))

/-- The form branch's hit test (sanitize.ts line 117):
`k === s || k.includes(s)` — unlike the query branch, no
`endsWith("_" + s)` disjunct. -/
def formKeyHit (key : Str) : Bool :=
  SENSITIVE_QUERY_KEYS.any (fun s => key == s || containsSub s key)

/-- The `some` case of `maskBody`: the form-urlencoded branch first,
then the JSON branch, else the body unchanged.  (`params.keys()` is
modelled as the snapshot of entry keys; `set` never changes the entry
count for an existing key, so live iteration sees the same keys.) -/
def maskBodySome (body : BodyRec) : BodyRec :=
  if isFormMime body then
    let pairs := parseFormPairs (body.text.getD [])
    let pairs2 :=
      (pairs.map (fun kv => kv.1)).foldl
        (fun ps key =>
          if formKeyHit (lowerStr key) then uspSet ps key DEFAULT_MASK
          else ps)
        pairs
    { body with text := some (serializeForm pairs2) }
  else if jsonCondB body then
    { body with text := some (maskJsonText (body.text.getD [])) }
  else body

/-- `maskBody`, including the `if (!body) return body` guard. -/
def maskBody : Option BodyRec → Option BodyRec
  | none => none
  | some body => some (maskBodySome body)

/-- `sanitizeLog`: mask request headers/query/body and, when a response
exists, its headers and body; all other fields are copied. -/
def sanitizeLog (log : LogRecord) : LogRecord :=
  { log with
    request :=
      { log.request with
        headers := maskHeaders log.request.headers
        query := maskQueryOpt log.request.query
        body := maskBody log.request.body }
    response :=
      match log.response with
      | some r =>
        some { r with
          headers := maskHeadersOpt r.headers
          body := maskBody r.body }
      | none => none }

/-! ## C1: sanitization masks sensitive headers and JSON keys -/

mutual

theorem deepMask_ok : ∀ j : Json, maskedOk (deepMaskJson j) = true
  | Json.jnull => rfl
  | Json.jbool _ => rfl
  | Json.jnum _ => rfl
  | Json.jstr _ => rfl
  | Json.jarr xs => by
    simpa [deepMaskJson, maskedOk] using deepMaskArr_ok xs
  | Json.jobj kvs => by
    simpa [deepMaskJson, maskedOk] using deepMaskObj_ok kvs

theorem deepMaskArr_ok : ∀ xs : JsonArr, maskedOkArr (deepMaskArr xs) = true
  | JsonArr.anil => rfl
  | JsonArr.acons hd tl => by
    simp [deepMaskArr, maskedOkArr, deepMask_ok hd, deepMaskArr_ok tl]

theorem deepMaskObj_ok : ∀ kvs : JsonObj, maskedOkObj (deepMaskObj kvs) = true
  | JsonObj.onil => rfl
  | JsonObj.ocons k v tl => by
    by_cases h : shouldMaskJsonKey k = true
    · simp [deepMaskObj, maskedOkObj, h, deepMaskObj_ok tl]
    · simp [deepMaskObj, maskedOkObj, h, deepMask_ok v, deepMaskObj_ok tl]

end

/-- The C1 header property relating an input and an output header map:
sensitive names carry exactly the mask, other entries survive
unchanged. -/
def headersClaimOk (inH outH : Headers) : Prop :=
  (∀ kv ∈ outH,
    SENSITIVE_HEADERS.contains (lowerStr kv.1) = true → kv.2 = DEFAULT_MASK) ∧
  (∀ kv ∈ inH,
    SENSITIVE_HEADERS.contains (lowerStr kv.1) = false → kv ∈ outH)

/-- The text carried by an optional body. -/
def bText (b : Option BodyRec) : Str :=
  match b with
  | some bb => bb.text.getD []
  | none => []

/-- The C1 body property (amended with the form-branch precedence):
when the body is not form-urlencoded and the JSON condition holds,
a successful parse yields the re-stringified deep-masked tree — whose
sensitive keys all carry the mask — and a failed parse leaves the text
untouched. -/
def bodyClaimOk (inB outB : Option BodyRec) : Prop :=
  ∀ b, inB = some b → isFormMime b = false → jsonCondB b = true →
    (parseJson (b.text.getD []) = none → bText outB = b.text.getD []) ∧
    (∀ j, parseJson (b.text.getD []) = some j →
      bText outB = stringifyJson 0 (deepMaskJson j) ∧
      maskedOk (deepMaskJson j) = true)

theorem maskHeaders_claim (hs : Headers) : headersClaimOk hs (maskHeaders hs) := by
  constructor
  · intro kv hkv hsens
    rcases List.mem_map.mp hkv with ⟨kv0, hkv0, heq⟩
    have hk1 : kv.1 = kv0.1 := by rw [← heq]
    have hk2 : kv.2 =
        if SENSITIVE_HEADERS.contains (lowerStr kv0.1) then DEFAULT_MASK
        else kv0.2 := by rw [← heq]
    rw [hk2, if_pos (by rw [← hk1]; exact hsens)]
  · intro kv hkv hnot
    apply List.mem_map.mpr
    refine ⟨kv, hkv, ?_⟩
    rw [if_neg (by intro hcon; rw [hnot] at hcon; exact Bool.false_ne_true hcon)]

theorem maskBody_claim (inB : Option BodyRec) : bodyClaimOk inB (maskBody inB) := by
  intro b hb hform hcond
  subst hb
  have hout : maskBody (some b) =
      some { b with text := some (maskJsonText (b.text.getD [])) } := by
    show some (maskBodySome b) = _
    unfold maskBodySome
    rw [if_neg (by intro hcon; rw [hform] at hcon; exact Bool.false_ne_true hcon),
      if_pos hcond]
  rw [hout]
  constructor
  · intro hnone
    simp [bText, maskJsonText, hnone]
  · intro j hj
    constructor
    · simp [bText, maskJsonText, hj]
    · exact deepMask_ok j

/-- **C1.** Counterexample to the claim as stated: a body with MIME
`application/x-www-form-urlencoded` and text `{a=1}` satisfies the
JSON condition (the trimmed text starts with `{`) and does not parse as
JSON, yet sanitization rewrites the text (the form branch re-serializes
it as `%7Ba=1%7D`) instead of leaving it untouched. -/
theorem c1_counterexample :
    jsonCondB { mime := some (str "application/x-www-form-urlencoded"),
                text := some (str "\x7ba=1\x7d") } = true ∧
    parseJson (str "\x7ba=1\x7d") = none ∧
    bText
        (sanitizeLog
          { id := str "i", ts := 1, method := str "POST", url := str "u",
            host := str "h", path := str "/", status := none,
            durationMs := none,
            request :=
              { headers := [],
                query := none,
                body := some
                  { mime := some (str "application/x-www-form-urlencoded"),
                    text := some (str "\x7ba=1\x7d") } },
            response := none }).request.body ≠
      str "\x7ba=1\x7d" := by
  refine ⟨by decide, by decide, ?_⟩
  decide

/-- **C1 (amended).** After `sanitizeLog`, every request or response
header whose lowercase name is in the sensitive set carries exactly the
mask string and all other headers keep their values; and every body
whose MIME does NOT contain `application/x-www-form-urlencoded` (that
branch takes precedence) but contains `application/json` or whose
trimmed text begins with `{` or `[`: if the text parses as JSON the
output text is the re-stringified tree in which every sub-value under a
sensitive key is replaced entirely by the mask, and if the parse fails
the text is left untouched. -/
theorem c1_amended (log : LogRecord) :
    headersClaimOk log.request.headers (sanitizeLog log).request.headers ∧
    (∀ r, log.response = some r →
      headersClaimOk (r.headers.getD [])
        (((sanitizeLog log).response.bind (fun rr => rr.headers)).getD [])) ∧
    bodyClaimOk log.request.body (sanitizeLog log).request.body ∧
    (∀ r, log.response = some r →
      bodyClaimOk r.body ((sanitizeLog log).response.bind (fun rr => rr.body))) := by
  refine ⟨maskHeaders_claim _, ?_, maskBody_claim _, ?_⟩
  · intro r hr
    have : (sanitizeLog log).response =
        some { r with headers := maskHeadersOpt r.headers,
                      body := maskBody r.body } := by
      unfold sanitizeLog
      rw [hr]
    rw [this]
    match hh : r.headers with
    | none => exact ⟨by simp [maskHeadersOpt], by simp⟩
    | some hs =>
      simpa [maskHeadersOpt] using maskHeaders_claim hs
  · intro r hr
    have : (sanitizeLog log).response =
        some { r with headers := maskHeadersOpt r.headers,
                      body := maskBody r.body } := by
      unfold sanitizeLog
      rw [hr]
    rw [this]
    simpa using maskBody_claim r.body

/-- Witness for the amended C1: the mock body
`{"token":"x","name":"y"}` with JSON MIME is rewritten to the masked
tree, in which the `token` sub-value is exactly the mask. -/
theorem c1_amended_witness :
    bText
        (sanitizeLog
          { id := str "i", ts := 1, method := str "POST", url := str "u",
            host := str "h", path := str "/", status := none,
            durationMs := none,
            request :=
              { headers := [(str "Authorization", str "Bearer abc")],
                query := none,
                body := some
                  { mime := some (str "application/json"),
                    text := some (str "\x7b\"token\":\"x\",\"name\":\"y\"\x7d") } },
            response := none }).request.body =
      stringifyJson 0
        (deepMaskJson
          (Json.jobj
            (JsonObj.ocons (str "token") (Json.jstr (str "x"))
              (JsonObj.ocons (str "name") (Json.jstr (str "y")) JsonObj.onil)))) ∧
    maskedOk
        (deepMaskJson
          (Json.jobj
            (JsonObj.ocons (str "token") (Json.jstr (str "x"))
              (JsonObj.ocons (str "name") (Json.jstr (str "y")) JsonObj.onil)))) =
      true := by
  have h := (c1_amended
    { id := str "i", ts := 1, method := str "POST", url := str "u",
      host := str "h", path := str "/", status := none, durationMs := none,
      request :=
        { headers := [(str "Authorization", str "Bearer abc")],
          query := none,
          body := some
            { mime := some (str "application/json"),
              text := some (str "\x7b\"token\":\"x\",\"name\":\"y\"\x7d") } },
      response := none }).2.2.1
  exact h _ rfl (by decide) (by decide) |>.2 _ (by decide)

/-! ## C10: sanitizeLog is a frame — only values are redacted -/

theorem sanitizeLog_response_some (log : LogRecord) (r : RespRec)
    (hr : log.response = some r) :
    (sanitizeLog log).response =
      some { r with headers := maskHeadersOpt r.headers,
                    body := maskBody r.body } := by
  unfold sanitizeLog
  rw [hr]

theorem maskHeaders_keys (hs : Headers) :
    (maskHeaders hs).map Prod.fst = hs.map Prod.fst := by
  unfold maskHeaders
  rw [List.map_map]
  rfl

theorem maskQuery_keys (q : Headers) :
    (maskQuery q).map Prod.fst = q.map Prod.fst := by
  unfold maskQuery
  rw [List.map_map]
  rfl

theorem maskBodySome_mime (b : BodyRec) : (maskBodySome b).mime = b.mime := by
  unfold maskBodySome
  split
  · rfl
  · split <;> rfl

theorem maskBody_mime (ob : Option BodyRec) :
    Option.map BodyRec.mime (maskBody ob) = Option.map BodyRec.mime ob := by
  match ob with
  | none => rfl
  | some b =>
    show some (maskBodySome b).mime = some b.mime
    rw [maskBodySome_mime]

/-- **C10.** `sanitizeLog` preserves every field except the redaction
targets: `id`, `ts`, `method`, `url`, `host`, `path`, `status`,
`durationMs`, the request and response header-name lists, the
query-key list, each body's `mime`, and the presence of the response
are all unchanged; only header values, query values and body text can
differ. -/
theorem c10_sanitize_frame (log : LogRecord) :
    (sanitizeLog log).id = log.id ∧
    (sanitizeLog log).ts = log.ts ∧
    (sanitizeLog log).method = log.method ∧
    (sanitizeLog log).url = log.url ∧
    (sanitizeLog log).host = log.host ∧
    (sanitizeLog log).path = log.path ∧
    (sanitizeLog log).status = log.status ∧
    (sanitizeLog log).durationMs = log.durationMs ∧
    (sanitizeLog log).request.headers.map Prod.fst =
      log.request.headers.map Prod.fst ∧
    Option.map (fun q => q.map Prod.fst) (sanitizeLog log).request.query =
      Option.map (fun q => q.map Prod.fst) log.request.query ∧
    Option.map BodyRec.mime (sanitizeLog log).request.body =
      Option.map BodyRec.mime log.request.body ∧
    (sanitizeLog log).response.isSome = log.response.isSome ∧
    Option.map (fun r => Option.map (fun hs => hs.map Prod.fst) r.headers)
        (sanitizeLog log).response =
      Option.map (fun r => Option.map (fun hs => hs.map Prod.fst) r.headers)
        log.response ∧
    Option.map (fun r => Option.map BodyRec.mime r.body)
        (sanitizeLog log).response =
      Option.map (fun r => Option.map BodyRec.mime r.body) log.response := by
  refine ⟨rfl, rfl, rfl, rfl, rfl, rfl, rfl, rfl, maskHeaders_keys _, ?_, ?_,
    ?_, ?_, ?_⟩
  · match hq : log.request.query with
    | none =>
      show Option.map _ (maskQueryOpt log.request.query) = _
      rw [hq]
      rfl
    | some q =>
      show Option.map _ (maskQueryOpt log.request.query) = _
      rw [hq]
      show some ((maskQuery q).map Prod.fst) = some (q.map Prod.fst)
      rw [maskQuery_keys]
  · exact maskBody_mime log.request.body
  · match hresp : log.response with
    | none =>
      have h0 : (sanitizeLog log).response = none := by
        unfold sanitizeLog; rw [hresp]
      rw [h0]
    | some r =>
      have h1 := sanitizeLog_response_some log r hresp
      rw [h1]
      rfl
  · match hresp : log.response with
    | none =>
      have h0 : (sanitizeLog log).response = none := by
        unfold sanitizeLog; rw [hresp]
      rw [h0]
    | some r =>
      have h1 := sanitizeLog_response_some log r hresp
      rw [h1]
      show some (Option.map (fun hs => hs.map Prod.fst) (maskHeadersOpt r.headers)) =
        some (Option.map (fun hs => hs.map Prod.fst) r.headers)
      match hh : r.headers with
      | none => rfl
      | some hs =>
        show some (some ((maskHeaders hs).map Prod.fst)) =
          some (some (hs.map Prod.fst))
        rw [maskHeaders_keys]
  · match hresp : log.response with
    | none =>
      have h0 : (sanitizeLog log).response = none := by
        unfold sanitizeLog; rw [hresp]
      rw [h0]
    | some r =>
      have h1 := sanitizeLog_response_some log r hresp
      rw [h1]
      show some (Option.map BodyRec.mime (maskBody r.body)) =
        some (Option.map BodyRec.mime r.body)
      rw [maskBody_mime]

/-! ## C8: `SessionStore.readLogs` -/

/-- `txt.trim().split("\n").filter(Boolean)`. -/
def ndjsonLines (txt : Str) : List Str :=
  (splitCh '\n' (trimStr txt)).filter (fun l => !l.isEmpty)

/-- `readLogs` from sessionStore.ts.  `metaOk` is whether
`this.read(id)` produced a meta; `file` is the log file's content, or
`none` when `readFile` failed (`.catch(() => "")`).  The last `limit`
lines are kept (`slice(Math.max(0, lines.length - limit))`), each
parsed with `JSON.parse`, malformed lines skipped. -/
def readLogs (metaOk : Bool) (file : Option Str) (limit : Nat) : List Json :=
  if metaOk then
    ((ndjsonLines (file.getD [])).drop
        ((ndjsonLines (file.getD [])).length - limit)).filterMap parseJson
  else []

/-- A well-formed NDJSON line: non-empty, no newline, and no leading or
trailing JS whitespace (true of every `JSON.stringify` output). -/
def lineOkB (l : Str) : Bool :=
  !l.isEmpty && !l.contains '\n' &&
  (match l.head? with | some ch => !isJsWsCh ch | none => true) &&
  (match l.getLast? with | some ch => !isJsWsCh ch | none => true)

theorem trimStr_eq_self {l : Str}
    (h1 : ∀ ch, l.head? = some ch → isJsWsCh ch = false)
    (h2 : ∀ ch, l.getLast? = some ch → isJsWsCh ch = false) :
    trimStr l = l := by
  unfold trimStr
  rw [dropWhile_eq_self_of_head h1]
  rw [dropWhile_eq_self_of_head, List.reverse_reverse]
  intro ch hch
  rw [List.head?_reverse] at hch
  exact h2 ch hch

theorem joinCh_head? {c : Char} {parts : List Str} {fp : Str}
    (h : parts.head? = some fp) (hfp : fp ≠ []) :
    (joinCh c parts).head? = fp.head? := by
  match parts with
  | [] => simp at h
  | s :: rest =>
    have hs : s = fp := by simpa using h
    subst hs
    match rest with
    | [] => rfl
    | t :: ts =>
      have hjoin : joinCh c (s :: t :: ts) = s ++ c :: joinCh c (t :: ts) := rfl
      rw [hjoin]
      match s, hfp with
      | x :: s', _ => rfl

theorem joinCh_ne_nil_of_head_ne_nil {c : Char} {t : Str} {ts : List Str}
    (ht : t ≠ []) : joinCh c (t :: ts) ≠ [] := by
  match ts with
  | [] => exact ht
  | z :: zs =>
    have hjoin : joinCh c (t :: z :: zs) = t ++ c :: joinCh c (z :: zs) := rfl
    rw [hjoin]
    simp

theorem joinCh_getLast? {c : Char} {parts : List Str} {lp : Str}
    (h : parts.getLast? = some lp) (hall : ∀ s ∈ parts, s ≠ []) :
    (joinCh c parts).getLast? = lp.getLast? := by
  induction parts with
  | nil => simp at h
  | cons s rest ih =>
    cases rest with
    | nil =>
      have hs : s = lp := by simpa using h
      subst hs
      rfl
    | cons t ts =>
      rw [List.getLast?_cons_cons] at h
      have hjoin : joinCh c (s :: t :: ts) = s ++ c :: joinCh c (t :: ts) := rfl
      rw [hjoin, List.getLast?_append_of_ne_nil _ (by simp)]
      have hne : joinCh c (t :: ts) ≠ [] :=
        joinCh_ne_nil_of_head_ne_nil (hall t (by simp))
      match hj : joinCh c (t :: ts) with
      | [] => exact absurd hj hne
      | y :: ys =>
        rw [List.getLast?_cons_cons, ← hj]
        exact ih h (fun u hu => hall u (List.mem_cons_of_mem s hu))

theorem lineOkB_spec {l : Str} (h : lineOkB l = true) :
    l ≠ [] ∧ '\n' ∉ l ∧
    (∀ ch, l.head? = some ch → isJsWsCh ch = false) ∧
    (∀ ch, l.getLast? = some ch → isJsWsCh ch = false) := by
  rw [lineOkB, Bool.and_eq_true] at h
  obtain ⟨h12, h4⟩ := h
  rw [Bool.and_eq_true] at h12
  obtain ⟨h12', h3⟩ := h12
  rw [Bool.and_eq_true] at h12'
  obtain ⟨h1, h2⟩ := h12'
  refine ⟨by simpa using h1, by simpa using h2, ?_, ?_⟩
  · intro ch hch
    rw [hch] at h3
    simpa using h3
  · intro ch hch
    rw [hch] at h4
    simpa using h4

theorem readLogs_empty_file (limit : Nat) (file : Option Str)
    (hf : file.getD [] = []) : readLogs true file limit = [] := by
  unfold readLogs ndjsonLines
  rw [hf]
  simp [trimStr, splitCh]

/-- **C8.** `readLogs` never throws: it returns `[]` when the session
meta or the log file is unreadable; and on a file assembled from
well-formed NDJSON lines it returns the last `limit` lines in file
order, each parsed as JSON with malformed lines skipped. -/
theorem c8_readLogs (lines : List Str) (limit : Nat) (file0 : Option Str)
    (h : ∀ l ∈ lines, lineOkB l = true) :
    readLogs true (some (joinCh '\n' lines)) limit =
      (lines.drop (lines.length - limit)).filterMap parseJson ∧
    readLogs false file0 limit = [] ∧
    readLogs true none limit = [] := by
  have hclean : ∀ l ∈ lines, l ≠ [] := fun l hl => (lineOkB_spec (h l hl)).1
  have hnl : ∀ l ∈ lines, '\n' ∉ l := fun l hl => (lineOkB_spec (h l hl)).2.1
  refine ⟨?_, rfl, readLogs_empty_file limit none rfl⟩
  match lines, h, hclean, hnl with
  | [], _, _, _ =>
    rw [readLogs_empty_file limit (some (joinCh '\n' [])) rfl]
    simp
  | l0 :: rest, h, hclean, hnl =>
    have hlines : ndjsonLines (joinCh '\n' (l0 :: rest)) = l0 :: rest := by
      unfold ndjsonLines
      have htrim : trimStr (joinCh '\n' (l0 :: rest)) = joinCh '\n' (l0 :: rest) := by
        apply trimStr_eq_self
        · intro ch hch
          rw [@joinCh_head? '\n' (l0 :: rest) l0 rfl
            (hclean l0 (by simp))] at hch
          exact (lineOkB_spec (h l0 (by simp))).2.2.1 ch hch
        · intro ch hch
          match hlast : (l0 :: rest).getLast? with
          | none => simp at hlast
          | some lp =>
            have hlpmem : lp ∈ l0 :: rest := mem_of_getLast?_eq hlast
            rw [joinCh_getLast? hlast hclean] at hch
            exact (lineOkB_spec (h lp hlpmem)).2.2.2 ch hch
      rw [htrim, splitCh_joinCh (by simp) hnl]
      rw [List.filter_eq_self.mpr]
      intro a ha
      simpa using hclean a ha
    have hreduce : readLogs true (some (joinCh '\n' (l0 :: rest))) limit =
        ((ndjsonLines (joinCh '\n' (l0 :: rest))).drop
          ((ndjsonLines (joinCh '\n' (l0 :: rest))).length - limit)).filterMap
          parseJson := rfl
    rw [hreduce, hlines]

/-- Witness for C8 on a concrete three-line file with one malformed
line and `limit = 2`. -/
theorem c8_readLogs_witness :
    (∀ l ∈ [str "1", str "oops", str "\x7b\"a\":2\x7d"], lineOkB l = true) ∧
    readLogs true
        (some (joinCh '\n' [str "1", str "oops", str "\x7b\"a\":2\x7d"])) 2 =
      (([str "1", str "oops", str "\x7b\"a\":2\x7d"].drop
          ([str "1", str "oops", str "\x7b\"a\":2\x7d"].length - 2)).filterMap
        parseJson) :=
  ⟨by decide,
   (c8_readLogs [str "1", str "oops", str "\x7b\"a\":2\x7d"] 2 none
     (by decide)).1⟩

/-! ## C7: route-catalog merging (src/apps/server/src/catalog.ts)

### Count maps (`Record<string, number>`) -/

/-- A JS object of counters, as an insertion-ordered association list. -/
abbrev KVN := List (Str × Nat)

/-- `m[k] ?? 0`. -/
def getCount (m : KVN) (k : Str) : Nat :=
  match m.find? (fun kv => kv.1 == k) with
  | some kv => kv.2
  | none => 0

/-- `m[k] = v`: update in place when the key exists, else append. -/
def setCount (m : KVN) (k : Str) (v : Nat) : KVN :=
  if (m.find? (fun kv => kv.1 == k)).isSome then
    m.map (fun kv => if kv.1 == k then (k, v) else kv)
  else m ++ [(k, v)]

/-- `mergeCountMap` from catalog.ts:
`out[k] = (out[k] ?? 0) + Number(v ?? 0)` for each entry of `b` over a
copy of `a`. -/
def mergeCountMap (a b : KVN) : KVN :=
  b.foldl (fun out kv => setCount out kv.1 (getCount out kv.1 + kv.2)) a

/-- The total weight `b` carries for a key (what element-wise addition
adds; equal to `getCount` when keys are unique). -/
def sumCount (m : KVN) (s : Str) : Nat :=
  ((m.filter (fun kv => kv.1 == s)).map Prod.snd).sum

theorem getCount_setCount_eq (m : KVN) (k : Str) (v : Nat) :
    getCount (setCount m k v) k = v := by
  unfold setCount
  by_cases hmem : (m.find? (fun kv => kv.1 == k)).isSome
  · rw [if_pos hmem]
    unfold getCount
    induction m with
    | nil => simp at hmem
    | cons kv m' ih =>
      by_cases hk : kv.1 = k
      · simp [List.find?, hk]
      · rw [List.map_cons]
        rw [show (if kv.1 == k then (k, v) else kv) = kv from by simp [hk]]
        rw [List.find?]
        rw [show ((kv.1 == k) : Bool) = false from by simp [hk]]
        apply ih
        rw [List.find?_cons_of_neg _ (by simp [hk])] at hmem
        exact hmem
  · rw [if_neg hmem]
    unfold getCount
    rw [List.find?_append]
    rw [Option.not_isSome_iff_eq_none] at hmem
    rw [hmem]
    simp

theorem getCount_map_update_ne (m : KVN) (k s : Str) (v : Nat) (hne : s ≠ k) :
    getCount (m.map (fun kv => if kv.1 == k then (k, v) else kv)) s =
      getCount m s := by
  unfold getCount
  induction m with
  | nil => rfl
  | cons kv m' ih =>
    rw [List.map_cons]
    by_cases hk : kv.1 = k
    · rw [show (if kv.1 == k then (k, v) else kv) = (k, v) from by simp [hk]]
      rw [List.find?_cons_of_neg _ (by simp [Ne.symm hne]),
        List.find?_cons_of_neg _ (by simp [hk ▸ Ne.symm hne])]
      exact ih
    · rw [show (if kv.1 == k then (k, v) else kv) = kv from by simp [hk]]
      by_cases hs : kv.1 = s
      · rw [List.find?_cons_of_pos _ (by simp [hs]),
          List.find?_cons_of_pos _ (by simp [hs])]
      · rw [List.find?_cons_of_neg _ (by simp [hs]),
          List.find?_cons_of_neg _ (by simp [hs])]
        exact ih

theorem getCount_append_single_ne (m : KVN) (k s : Str) (v : Nat)
    (hne : s ≠ k) :
    getCount (m ++ [(k, v)]) s = getCount m s := by
  unfold getCount
  rw [List.find?_append]
  match hfind : m.find? (fun kv => kv.1 == s) with
  | some kv0 => rw [hfind]; rfl
  | none =>
    rw [hfind, List.find?_cons_of_neg _ (by simp [Ne.symm hne])]
    rfl

theorem getCount_setCount_ne (m : KVN) (k s : Str) (v : Nat) (hne : s ≠ k) :
    getCount (setCount m k v) s = getCount m s := by
  unfold setCount
  split
  · exact getCount_map_update_ne m k s v hne
  · exact getCount_append_single_ne m k s v hne

theorem sumCount_cons (kv : Str × Nat) (m : KVN) (s : Str) :
    sumCount (kv :: m) s =
      (if kv.1 = s then kv.2 else 0) + sumCount m s := by
  unfold sumCount
  by_cases h : kv.1 = s
  · rw [List.filter_cons_of_pos (by simp [h]), if_pos h]
    simp
  · rw [List.filter_cons_of_neg (by simp [h]), if_neg h]
    simp

theorem getCount_mergeCountMap (b : KVN) :
    ∀ (a : KVN) (s : Str),
      getCount (mergeCountMap a b) s = getCount a s + sumCount b s := by
  induction b with
  | nil =>
    intro a s
    unfold mergeCountMap sumCount
    simp
  | cons kv b' ih =>
    intro a s
    have hstep : mergeCountMap a (kv :: b') =
        mergeCountMap (setCount a kv.1 (getCount a kv.1 + kv.2)) b' := rfl
    rw [hstep, ih, sumCount_cons]
    by_cases h : kv.1 = s
    · rw [if_pos h, ← h, getCount_setCount_eq]
      omega
    · rw [if_neg h, getCount_setCount_ne _ _ _ _ (fun hc => h hc.symm)]
      omega

/-- With unique keys, the carried weight is just the stored count. -/
theorem sumCount_eq_getCount {m : KVN} (hn : (m.map Prod.fst).Nodup) (s : Str) :
    sumCount m s = getCount m s := by
  induction m with
  | nil => rfl
  | cons kv m' ih =>
    rw [sumCount_cons]
    rw [List.map_cons, List.nodup_cons] at hn
    by_cases h : kv.1 = s
    · have hrest : sumCount m' s = 0 := by
        unfold sumCount
        rw [List.filter_eq_nil_iff.mpr]
        · simp
        · intro kv2 hkv2
          simp only [beq_iff_eq]
          intro hc
          exact hn.1 (by rw [← h] at hc; exact hc ▸ List.mem_map_of_mem Prod.fst hkv2)
      rw [hrest, if_pos h]
      unfold getCount
      rw [List.find?_cons_of_pos _ (by simp [h])]
      simp
    · rw [if_neg h, ih hn.2]
      unfold getCount
      rw [List.find?_cons_of_neg _ (by simp [h])]
      simp

/-! ### JS default sort order and insertion sort -/

/-- The default JS `Array.prototype.sort` comparison on strings:
lexicographic by code unit. -/
def strLe : Str → Str → Bool
  | [], _ => true
  | _ :: _, [] => false
  | x :: xs, y :: ys =>
    if x < y then true else if y < x then false else strLe xs ys

theorem strLe_total (a b : Str) : strLe a b = true ∨ strLe b a = true := by
  induction a generalizing b with
  | nil => left; rfl
  | cons x xs ih =>
    match b with
    | [] => right; rfl
    | y :: ys =>
      rcases lt_trichotomy x y with h | h | h
      · left; simp [strLe, h]
      · subst h
        rcases ih ys with h2 | h2
        · left; simp [strLe, lt_irrefl, h2]
        · right; simp [strLe, lt_irrefl, h2]
      · right; simp [strLe, h]

theorem strLe_trans {a b c : Str} (hab : strLe a b = true)
    (hbc : strLe b c = true) : strLe a c = true := by
  induction a generalizing b c with
  | nil => rfl
  | cons x xs ih =>
    match b, c with
    | [], _ => simp [strLe] at hab
    | _ :: _, [] => simp [strLe] at hbc
    | y :: ys, z :: zs =>
      rw [strLe] at hab hbc ⊢
      by_cases hxy : x < y
      · -- x < y; combine with y ≤ z
        by_cases hyz : y < z
        · rw [if_pos (lt_trans hxy hyz)]
        · by_cases hzy : z < y
          · simp [hyz, hzy] at hbc
          · have hyz' : y = z := le_antisymm (not_lt.mp hzy) (not_lt.mp hyz)
            rw [if_pos (hyz' ▸ hxy)]
      · by_cases hyx : y < x
        · simp [hxy, hyx] at hab
        · have hxy' : x = y := le_antisymm (not_lt.mp hyx) (not_lt.mp hxy)
          subst hxy'
          simp only [if_neg hxy, if_neg hyx] at hab
          by_cases hyz : x < z
          · rw [if_pos hyz]
          · by_cases hzy : z < x
            · simp [hyz, hzy] at hbc
            · rw [if_neg hyz, if_neg hzy]
              rw [if_neg hyz, if_neg hzy] at hbc
              exact ih hab hbc

/-- Insertion into a sorted list under a boolean comparator. -/
def insertSortedBy {α : Type} (le : α → α → Bool) (x : α) :
    List α → List α
  | [] => [x]
  | y :: ys => if le x y then x :: y :: ys else y :: insertSortedBy le x ys

/-- Insertion sort: the model of `Array.prototype.sort(cmp)`. -/
def insertionSortBy {α : Type} (le : α → α → Bool) (l : List α) : List α :=
  l.foldr (insertSortedBy le) []

theorem insertSortedBy_perm {α : Type} (le : α → α → Bool) (x : α)
    (l : List α) : List.Perm (insertSortedBy le x l) (x :: l) := by
  induction l with
  | nil => exact List.Perm.refl _
  | cons y ys ih =>
    rw [insertSortedBy]
    split
    · exact List.Perm.refl _
    · exact List.Perm.trans (List.Perm.cons y ih) (List.Perm.swap x y ys)

theorem insertionSortBy_perm {α : Type} (le : α → α → Bool) (l : List α) :
    List.Perm (insertionSortBy le l) l := by
  induction l with
  | nil => exact List.Perm.refl _
  | cons x xs ih =>
    exact List.Perm.trans (insertSortedBy_perm le x _) (List.Perm.cons x ih)

theorem insertSortedBy_pairwise {α : Type} {le : α → α → Bool}
    (htot : ∀ a b, le a b = true ∨ le b a = true)
    (htrans : ∀ a b c, le a b = true → le b c = true → le a c = true)
    (x : α) {l : List α}
    (hl : l.Pairwise (fun a b => le a b = true)) :
    (insertSortedBy le x l).Pairwise (fun a b => le a b = true) := by
  induction l with
  | nil => simp [insertSortedBy]
  | cons y ys ih =>
    rw [insertSortedBy]
    rw [List.pairwise_cons] at hl
    split
    · next hxy =>
      rw [List.pairwise_cons]
      refine ⟨?_, List.pairwise_cons.mpr hl⟩
      intro b hb
      rcases List.mem_cons.mp hb with hb | hb
      · exact hb ▸ hxy
      · exact htrans x y b hxy (hl.1 b hb)
    · next hxy =>
      rw [List.pairwise_cons]
      constructor
      · intro b hb
        have hb2 := (insertSortedBy_perm le x ys).mem_iff.mp hb
        rcases List.mem_cons.mp hb2 with hb2 | hb2
        · subst hb2
          rcases htot y b with h | h
          · exact h
          · exact absurd h (by simpa using hxy)
        · exact hl.1 b hb2
      · exact ih hl.2

theorem insertionSortBy_pairwise {α : Type} {le : α → α → Bool}
    (htot : ∀ a b, le a b = true ∨ le b a = true)
    (htrans : ∀ a b c, le a b = true → le b c = true → le a c = true)
    (l : List α) :
    (insertionSortBy le l).Pairwise (fun a b => le a b = true) := by
  induction l with
  | nil => simp [insertionSortBy]
  | cons x xs ih => exact insertSortedBy_pairwise htot htrans x ih

/-! ### `Array.from(new Set(l))`: dedup in first-insertion order -/

def dedupGo (seen : List Str) : List Str → List Str
  | [] => []
  | x :: xs =>
    if seen.contains x then dedupGo seen xs
    else x :: dedupGo (x :: seen) xs

def dedupKeepFirst (l : List Str) : List Str := dedupGo [] l

theorem mem_dedupGo {x : Str} (l : List Str) :
    ∀ seen : List Str, x ∈ dedupGo seen l ↔ x ∈ l ∧ x ∉ seen := by
  induction l with
  | nil => intro seen; simp [dedupGo]
  | cons y ys ih =>
    intro seen
    rw [dedupGo]
    by_cases hy : seen.contains y
    · rw [if_pos hy, ih]
      constructor
      · intro ⟨h1, h2⟩
        exact ⟨List.mem_cons_of_mem y h1, h2⟩
      · intro ⟨h1, h2⟩
        rcases List.mem_cons.mp h1 with h1 | h1
        · exact absurd (h1 ▸ (by simpa using hy)) h2
        · exact ⟨h1, h2⟩
    · rw [if_neg hy]
      by_cases hxy : x = y
      · subst hxy
        constructor
        · intro _
          exact ⟨List.mem_cons_self x ys, by simpa using hy⟩
        · intro _
          exact List.mem_cons_self x _
      · constructor
        · intro h
          rcases List.mem_cons.mp h with h | h
          · exact absurd h hxy
          · have := (ih (y :: seen)).mp h
            exact ⟨List.mem_cons_of_mem y this.1,
              fun hc => this.2 (List.mem_cons_of_mem y hc)⟩
        · intro ⟨h1, h2⟩
          rcases List.mem_cons.mp h1 with h1 | h1
          · exact absurd h1 hxy
          · exact List.mem_cons_of_mem y ((ih (y :: seen)).mpr
              ⟨h1, fun hc => h2 (by
                rcases List.mem_cons.mp hc with hc | hc
                · exact absurd hc hxy
                · exact hc)⟩)

theorem dedupGo_nodup (l : List Str) : ∀ seen, (dedupGo seen l).Nodup := by
  induction l with
  | nil => intro seen; simp [dedupGo]
  | cons y ys ih =>
    intro seen
    rw [dedupGo]
    split
    · exact ih seen
    · rw [List.nodup_cons]
      refine ⟨?_, ih (y :: seen)⟩
      intro hc
      exact ((mem_dedupGo ys (y :: seen)).mp hc).2 (List.mem_cons_self y seen)

theorem mem_dedupKeepFirst {x : Str} {l : List Str} :
    x ∈ dedupKeepFirst l ↔ x ∈ l := by
  unfold dedupKeepFirst
  rw [mem_dedupGo]
  simp

theorem dedupKeepFirst_nodup (l : List Str) : (dedupKeepFirst l).Nodup :=
  dedupGo_nodup l []

/-! ### Catalog data model and `mergeReports` -/

/-- `EndpointSample` from routeReport.ts. -/
structure EndpointSample where
  url : Str
  ts : Nat
  status : Option Nat
  request : ReqRec
  response : Option RespRec
deriving DecidableEq

/-- `EndpointSummary` from routeReport.ts (the nested
`mime: {req, res}` record is flattened into two fields). -/
structure EndpointSummary where
  key : Str
  method : Str
  host : Str
  path : Str
  count : Nat
  statuses : KVN
  queryKeys : List Str
  mimeReq : KVN
  mimeRes : KVN
  sample : Option EndpointSample
deriving DecidableEq

/-- `RouteReport` from routeReport.ts. -/
structure RouteReport where
  routeKey : Str
  sessionId : Str
  createdAt : Nat
  totalLogs : Nat
  endpoints : List EndpointSummary
deriving DecidableEq

/-- The `else` branch of the merge loop: `prev.count += e.count`,
element-wise `mergeCountMap` on statuses and both mime maps, query-key
union deduped and sorted; `sample`, `key`, `method`, `host`, `path`
stay `prev`'s. -/
def mergeEndpoint (prev e : EndpointSummary) : EndpointSummary :=
  { prev with
    count := prev.count + e.count
    statuses := mergeCountMap prev.statuses e.statuses
    mimeReq := mergeCountMap prev.mimeReq e.mimeReq
    mimeRes := mergeCountMap prev.mimeRes e.mimeRes
    queryKeys :=
      insertionSortBy strLe (dedupKeepFirst (prev.queryKeys ++ e.queryKeys)) }

/-- One step of the merge loop over a `Map<string, endpoint>`
(insertion-ordered, unique keys): `map.set(e.key, {...e, sample:
e.sample})` for a new key, in-place merge otherwise. -/
def mergeInto (m : List EndpointSummary) (e : EndpointSummary) :
    List EndpointSummary :=
  if (m.find? (fun ep => ep.key == e.key)).isSome then
    m.map (fun ep => if ep.key == e.key then mergeEndpoint ep e else ep)
  else m ++ [e]

/-- The whole double loop of `mergeReports` (reports in order, each
report's endpoints in order). -/
def mergeAll (reports : List RouteReport) : List EndpointSummary :=
  (reports.flatMap (fun r => r.endpoints)).foldl mergeInto []

/-- `mergeReports` from catalog.ts (`now` stands for `Date.now()`). -/
def mergeReports (now : Nat) (routeKey : Str) (reports : List RouteReport) :
    RouteReport :=
  { routeKey := routeKey
    sessionId :=
      routeKey ++ str " (" ++ natToStr reports.length ++ str " sessions)"
    createdAt := now
    totalLogs := reports.foldl (fun acc r => acc + r.totalLogs) 0
    endpoints :=
      insertionSortBy (fun a b => decide (b.count ≤ a.count))
        (mergeAll reports) }

/-- `(s.routeKey || s.name || "/").trim() || "/"`. -/
def routeKeyOf (routeKey? name? : Option Str) : Str :=
  let t := trimStr (jsOrStr routeKey? (jsOrStr name? (str "/")))
  if t.isEmpty then str "/" else t

/-- One step of the `byRoute` grouping map. -/
def appendGroup (m : List (Str × List RouteReport)) (k : Str)
    (r : RouteReport) : List (Str × List RouteReport) :=
  if (m.find? (fun g => g.1 == k)).isSome then
    m.map (fun g => if g.1 == k then (g.1, g.2 ++ [r]) else g)
  else m ++ [(k, [r])]

def groupByRoute (pairs : List (Str × RouteReport)) :
    List (Str × List RouteReport) :=
  pairs.foldl (fun m kv => appendGroup m kv.1 kv.2) []

/-- The pure core of `buildRouteCatalog`: group the (resolved routeKey,
report) pairs in session order, merge each group, sort by route key
ascending (`localeCompare` modelled as code-unit order). -/
def buildRouteCatalogCore (now : Nat) (pairs : List (Str × RouteReport)) :
    List RouteReport :=
  insertionSortBy (fun a b => strLe a.routeKey b.routeKey)
    ((groupByRoute pairs).map (fun g => mergeReports now g.1 g.2))

/-! ### Characterizing the merge fold -/

/-- Lookup in the endpoint map. -/
def findEp (m : List EndpointSummary) (k : Str) : Option EndpointSummary :=
  m.find? (fun ep => ep.key == k)

/-- What the fold accumulates for one key: nothing, or the left fold of
`mergeEndpoint` over the occurrences. -/
def combineOcc (start : Option EndpointSummary)
    (occ : List EndpointSummary) : Option EndpointSummary :=
  match start with
  | none =>
    match occ with
    | [] => none
    | e0 :: rest => some (rest.foldl mergeEndpoint e0)
  | some prev => some (occ.foldl mergeEndpoint prev)

theorem mergeEndpoint_key (prev e : EndpointSummary) :
    (mergeEndpoint prev e).key = prev.key := rfl

theorem findEp_map_update (m : List EndpointSummary) (e : EndpointSummary)
    (k : Str) (hne : ¬(e.key = k)) :
    findEp (m.map (fun ep => if ep.key == e.key then mergeEndpoint ep e else ep)) k =
      findEp m k := by
  unfold findEp
  induction m with
  | nil => rfl
  | cons ep m' ih =>
    rw [List.map_cons]
    by_cases hk : ep.key = k
    · have hne2 : ¬(ep.key = e.key) := fun hc => hne (hc ▸ hk.symm ▸ hk)
      rw [show (if ep.key == e.key then mergeEndpoint ep e else ep) = ep from
        by simp [hne2]]
      rw [List.find?_cons_of_pos _ (by simp [hk]),
        List.find?_cons_of_pos _ (by simp [hk])]
    · by_cases he : ep.key = e.key
      · rw [show (if ep.key == e.key then mergeEndpoint ep e else ep) =
            mergeEndpoint ep e from by simp [he]]
        rw [List.find?_cons_of_neg _ (by simp [mergeEndpoint_key, hk]),
          List.find?_cons_of_neg _ (by simp [hk])]
        exact ih
      · rw [show (if ep.key == e.key then mergeEndpoint ep e else ep) = ep from
          by simp [he]]
        rw [List.find?_cons_of_neg _ (by simp [hk]),
          List.find?_cons_of_neg _ (by simp [hk])]
        exact ih

theorem findEp_append_single (m : List EndpointSummary) (e : EndpointSummary)
    (k : Str) :
    findEp (m ++ [e]) k =
      (findEp m k).or (if e.key = k then some e else none) := by
  unfold findEp
  rw [List.find?_append]
  congr 1
  by_cases he : e.key = k
  · rw [List.find?_cons_of_pos _ (by simp [he]), if_pos he]
  · rw [List.find?_cons_of_neg _ (by simp [he]), if_neg he]
    rfl

theorem findEp_mergeInto_other (m : List EndpointSummary)
    (e : EndpointSummary) (k : Str) (hne : ¬(e.key = k)) :
    findEp (mergeInto m e) k = findEp m k := by
  unfold mergeInto
  split
  · exact findEp_map_update m e k hne
  · rw [findEp_append_single, if_neg hne]
    match h : findEp m k with
    | some ep => rfl
    | none => rfl

theorem findEp_map_update_self (m : List EndpointSummary)
    (e : EndpointSummary) {prev : EndpointSummary}
    (hfind : findEp m e.key = some prev) :
    findEp (m.map (fun ep => if ep.key == e.key then mergeEndpoint ep e else ep))
        e.key = some (mergeEndpoint prev e) := by
  unfold findEp at hfind ⊢
  induction m with
  | nil => simp at hfind
  | cons ep m' ih =>
    rw [List.map_cons]
    by_cases hk : ep.key = e.key
    · rw [List.find?_cons_of_pos _ (by simp [hk])] at hfind
      rw [show (if ep.key == e.key then mergeEndpoint ep e else ep) =
          mergeEndpoint ep e from by simp [hk]]
      rw [List.find?_cons_of_pos _ (by simp [mergeEndpoint_key, hk])]
      rw [Option.some_inj] at hfind
      rw [hfind]
    · rw [List.find?_cons_of_neg _ (by simp [hk])] at hfind
      rw [show (if ep.key == e.key then mergeEndpoint ep e else ep) = ep from
        by simp [hk]]
      rw [List.find?_cons_of_neg _ (by simp [hk])]
      exact ih hfind

theorem findEp_mergeInto_self (m : List EndpointSummary)
    (e : EndpointSummary) :
    findEp (mergeInto m e) e.key =
      match findEp m e.key with
      | some prev => some (mergeEndpoint prev e)
      | none => some e := by
  unfold mergeInto
  match hfind : findEp m e.key with
  | some prev =>
    rw [if_pos (by unfold findEp at hfind; simp [hfind])]
    exact findEp_map_update_self m e hfind
  | none =>
    rw [if_neg (by unfold findEp at hfind; simp [hfind])]
    rw [findEp_append_single, hfind, if_pos rfl]
    rfl

theorem findEp_foldl_mergeInto (es : List EndpointSummary) :
    ∀ (m : List EndpointSummary) (k : Str),
      findEp (es.foldl mergeInto m) k =
        combineOcc (findEp m k) (es.filter (fun e => e.key == k)) := by
  induction es with
  | nil =>
    intro m k
    rw [List.foldl_nil, List.filter_nil]
    match h : findEp m k with
    | some prev => rfl
    | none => rfl
  | cons e es' ih =>
    intro m k
    rw [List.foldl_cons]
    by_cases hk : e.key = k
    · rw [List.filter_cons_of_pos (by simp [hk])]
      rw [ih (mergeInto m e) k]
      subst hk
      rw [findEp_mergeInto_self m e]
      match hfind : findEp m e.key with
      | some prev => rfl
      | none => rfl
    · rw [List.filter_cons_of_neg (by simp [hk])]
      rw [ih (mergeInto m e) k, findEp_mergeInto_other m e k hk]

theorem findEp_mergeAll (reports : List RouteReport) (k : Str) :
    findEp (mergeAll reports) k =
      combineOcc none
        ((reports.flatMap (fun r => r.endpoints)).filter
          (fun e => e.key == k)) := by
  unfold mergeAll
  rw [findEp_foldl_mergeInto]
  rfl

/-! ### The merge map has unique keys; members with a key are unique -/

theorem keys_mergeInto (m : List EndpointSummary) (e : EndpointSummary)
    (hn : (m.map EndpointSummary.key).Nodup) :
    (mergeInto m e).map EndpointSummary.key =
      (if (findEp m e.key).isSome then m.map EndpointSummary.key
       else m.map EndpointSummary.key ++ [e.key]) ∧
    ((mergeInto m e).map EndpointSummary.key).Nodup := by
  unfold mergeInto
  by_cases hp : (m.find? (fun ep => ep.key == e.key)).isSome
  · rw [if_pos hp]
    have hkeys : (m.map (fun ep =>
        if ep.key == e.key then mergeEndpoint ep e else ep)).map
          EndpointSummary.key = m.map EndpointSummary.key := by
      rw [List.map_map]
      apply List.map_congr_left
      intro ep _
      by_cases h : ep.key = e.key
      · simp [h, mergeEndpoint_key]
      · simp [h]
    rw [hkeys]
    rw [show findEp m e.key = m.find? (fun ep => ep.key == e.key) from rfl]
    rw [if_pos hp]
    exact ⟨rfl, hn⟩
  · rw [if_neg hp]
    rw [show findEp m e.key = m.find? (fun ep => ep.key == e.key) from rfl]
    rw [if_neg hp]
    rw [List.map_append]
    refine ⟨rfl, ?_⟩
    rw [List.nodup_append]
    refine ⟨hn, List.nodup_singleton _, ?_⟩
    intro a ha hb
    rcases List.mem_map.mp ha with ⟨ep, hep, hk⟩
    have : a = e.key := by simpa using hb
    rw [Option.not_isSome_iff_eq_none, List.find?_eq_none] at hp
    exact hp ep hep (by simp [hk, this])

theorem keys_mergeAll_nodup (reports : List RouteReport) :
    ((mergeAll reports).map EndpointSummary.key).Nodup := by
  unfold mergeAll
  generalize (reports.flatMap fun r => r.endpoints) = es
  have hgen : ∀ (m : List EndpointSummary),
      (m.map EndpointSummary.key).Nodup →
      ((es.foldl mergeInto m).map EndpointSummary.key).Nodup := by
    induction es with
    | nil => intro m hm; exact hm
    | cons e es' ih =>
      intro m hm
      rw [List.foldl_cons]
      exact ih _ (keys_mergeInto m e hm).2
  exact hgen [] (by simp)

theorem findEp_of_mem {m : List EndpointSummary} {ep : EndpointSummary}
    {k : Str} (hn : (m.map EndpointSummary.key).Nodup) (hmem : ep ∈ m)
    (hk : ep.key = k) : findEp m k = some ep := by
  unfold findEp
  induction m with
  | nil => simp at hmem
  | cons e0 m' ih =>
    rw [List.map_cons, List.nodup_cons] at hn
    rcases List.mem_cons.mp hmem with h | h
    · subst h
      rw [List.find?_cons_of_pos _ (by simp [hk])]
    · by_cases h0 : e0.key = k
      · exfalso
        apply hn.1
        rw [h0, ← hk]
        exact List.mem_map_of_mem EndpointSummary.key h
      · rw [List.find?_cons_of_neg _ (by simp [h0])]
        exact ih hn.2 h

/-! ### Field-wise behaviour of the occurrence fold -/

theorem foldl_mergeEndpoint_count (occ : List EndpointSummary) :
    ∀ acc : EndpointSummary,
      (occ.foldl mergeEndpoint acc).count =
        acc.count + (occ.map EndpointSummary.count).sum := by
  induction occ with
  | nil => intro acc; simp
  | cons o os ih =>
    intro acc
    rw [List.foldl_cons, ih]
    show (mergeEndpoint acc o).count + _ = _
    rw [show (mergeEndpoint acc o).count = acc.count + o.count from rfl]
    simp
    omega

theorem foldl_mergeEndpoint_sample (occ : List EndpointSummary) :
    ∀ acc : EndpointSummary,
      (occ.foldl mergeEndpoint acc).sample = acc.sample := by
  induction occ with
  | nil => intro acc; rfl
  | cons o os ih =>
    intro acc
    rw [List.foldl_cons, ih]
    rfl

theorem foldl_mergeEndpoint_key (occ : List EndpointSummary) :
    ∀ acc : EndpointSummary,
      (occ.foldl mergeEndpoint acc).key = acc.key := by
  induction occ with
  | nil => intro acc; rfl
  | cons o os ih =>
    intro acc
    rw [List.foldl_cons, ih]
    rfl

theorem foldl_mergeEndpoint_countMap (f : EndpointSummary → KVN)
    (hf : ∀ prev e, f (mergeEndpoint prev e) = mergeCountMap (f prev) (f e))
    (occ : List EndpointSummary) :
    ∀ (acc : EndpointSummary) (s : Str),
      getCount (f (occ.foldl mergeEndpoint acc)) s =
        getCount (f acc) s +
          (occ.map (fun o => sumCount (f o) s)).sum := by
  induction occ with
  | nil => intro acc s; simp
  | cons o os ih =>
    intro acc s
    rw [List.foldl_cons, ih, hf, getCount_mergeCountMap]
    simp
    omega

theorem foldl_mergeEndpoint_queryKeys (occ : List EndpointSummary) :
    ∀ acc : EndpointSummary,
      (acc.queryKeys.Pairwise (fun a b => strLe a b = true)) →
      acc.queryKeys.Nodup →
      (∀ q, q ∈ (occ.foldl mergeEndpoint acc).queryKeys ↔
        (q ∈ acc.queryKeys ∨ ∃ o ∈ occ, q ∈ o.queryKeys)) ∧
      ((occ.foldl mergeEndpoint acc).queryKeys.Pairwise
        (fun a b => strLe a b = true)) ∧
      (occ.foldl mergeEndpoint acc).queryKeys.Nodup := by
  induction occ with
  | nil =>
    intro acc hs hn
    refine ⟨fun q => ?_, hs, hn⟩
    simp
  | cons o os ih =>
    intro acc hs hn
    rw [List.foldl_cons]
    have hqk : (mergeEndpoint acc o).queryKeys =
        insertionSortBy strLe (dedupKeepFirst (acc.queryKeys ++ o.queryKeys)) :=
      rfl
    have hmem : ∀ q, q ∈ (mergeEndpoint acc o).queryKeys ↔
        (q ∈ acc.queryKeys ∨ q ∈ o.queryKeys) := by
      intro q
      rw [hqk, (insertionSortBy_perm strLe _).mem_iff, mem_dedupKeepFirst,
        List.mem_append]
    have hsorted : (mergeEndpoint acc o).queryKeys.Pairwise
        (fun a b => strLe a b = true) := by
      rw [hqk]
      exact insertionSortBy_pairwise strLe_total (fun a b c => strLe_trans) _
    have hnodup : (mergeEndpoint acc o).queryKeys.Nodup := by
      rw [hqk]
      exact ((insertionSortBy_perm strLe _).nodup_iff).mpr
        (dedupKeepFirst_nodup _)
    obtain ⟨ihmem, ihsort, ihnodup⟩ := ih (mergeEndpoint acc o) hsorted hnodup
    refine ⟨fun q => ?_, ihsort, ihnodup⟩
    rw [ihmem q, hmem q]
    constructor
    · intro h
      rcases h with (h | h) | h
      · exact Or.inl h
      · exact Or.inr ⟨o, by simp, h⟩
      · rcases h with ⟨o2, ho2, hq⟩
        exact Or.inr ⟨o2, List.mem_cons_of_mem o ho2, hq⟩
    · intro h
      rcases h with h | ⟨o2, ho2, hq⟩
      · exact Or.inl (Or.inl h)
      · rcases List.mem_cons.mp ho2 with h2 | h2
        · exact Or.inl (Or.inr (h2 ▸ hq))
        · exact Or.inr ⟨o2, h2, hq⟩

/-- All endpoints carrying key `k` across a group's reports, in
iteration order. -/
def occurrencesOf (reports : List RouteReport) (k : Str) :
    List EndpointSummary :=
  (reports.flatMap (fun r => r.endpoints)).filter (fun e => e.key == k)

theorem mem_occurrencesOf {reports : List RouteReport} {k : Str}
    {o : EndpointSummary} (h : o ∈ occurrencesOf reports k) :
    ∃ r ∈ reports, o ∈ r.endpoints := by
  unfold occurrencesOf at h
  have := List.mem_of_mem_filter h
  exact List.mem_flatMap.mp this

/-- **C7.** For each route-key group, merging unions endpoints by key:
`count` and each entry of `statuses`, `mime.req`, `mime.res` add
element-wise over the key's occurrences, `queryKeys` is the sorted
deduplicated union, the `sample` is the first occurrence's (never
replaced); and the catalog's route reports are sorted by `routeKey`
ascending.  The hypotheses state that the input reports are well-formed
(unique keys inside each counter object, sorted unique query keys), as
`buildRouteReport` produces them. -/
theorem c7_merge_catalog (now : Nat) (rk : Str) (reports : List RouteReport)
    (k : Str)
    (hq : ∀ r ∈ reports, ∀ e ∈ r.endpoints,
      e.queryKeys.Pairwise (fun a b => strLe a b = true) ∧ e.queryKeys.Nodup)
    (hkv : ∀ r ∈ reports, ∀ e ∈ r.endpoints,
      (e.statuses.map Prod.fst).Nodup ∧ (e.mimeReq.map Prod.fst).Nodup ∧
        (e.mimeRes.map Prod.fst).Nodup) :
    (∀ ep ∈ (mergeReports now rk reports).endpoints, ep.key = k →
      ep.count = ((occurrencesOf reports k).map EndpointSummary.count).sum ∧
      (∀ s, getCount ep.statuses s =
        ((occurrencesOf reports k).map
          (fun o => getCount o.statuses s)).sum) ∧
      (∀ s, getCount ep.mimeReq s =
        ((occurrencesOf reports k).map (fun o => getCount o.mimeReq s)).sum) ∧
      (∀ s, getCount ep.mimeRes s =
        ((occurrencesOf reports k).map (fun o => getCount o.mimeRes s)).sum) ∧
      (∀ o0 rest, occurrencesOf reports k = o0 :: rest →
        ep.sample = o0.sample) ∧
      (∀ q, q ∈ ep.queryKeys ↔ ∃ o ∈ occurrencesOf reports k,
        q ∈ o.queryKeys) ∧
      ep.queryKeys.Pairwise (fun a b => strLe a b = true) ∧
      ep.queryKeys.Nodup) ∧
    (occurrencesOf reports k ≠ [] →
      ∃ ep ∈ (mergeReports now rk reports).endpoints, ep.key = k) ∧
    (∀ (now2 : Nat) (pairs : List (Str × RouteReport)),
      (buildRouteCatalogCore now2 pairs).Pairwise
        (fun a b => strLe a.routeKey b.routeKey = true)) := by
  have hperm : List.Perm (mergeReports now rk reports).endpoints
      (mergeAll reports) :=
    insertionSortBy_perm _ _
  have hchar : findEp (mergeAll reports) k =
      combineOcc none (occurrencesOf reports k) := findEp_mergeAll reports k
  have hocc_q : ∀ o ∈ occurrencesOf reports k,
      o.queryKeys.Pairwise (fun a b => strLe a b = true) ∧
        o.queryKeys.Nodup := by
    intro o ho
    rcases mem_occurrencesOf ho with ⟨r, hr, he⟩
    exact hq r hr o he
  have hocc_kv : ∀ o ∈ occurrencesOf reports k,
      (o.statuses.map Prod.fst).Nodup ∧ (o.mimeReq.map Prod.fst).Nodup ∧
        (o.mimeRes.map Prod.fst).Nodup := by
    intro o ho
    rcases mem_occurrencesOf ho with ⟨r, hr, he⟩
    exact hkv r hr o he
  refine ⟨?_, ?_, ?_⟩
  · intro ep hep hepk
    have hep' : ep ∈ mergeAll reports := hperm.mem_iff.mp hep
    have hfind : findEp (mergeAll reports) k = some ep :=
      findEp_of_mem (keys_mergeAll_nodup reports) hep' hepk
    rw [hchar] at hfind
    match hocc : occurrencesOf reports k with
    | [] =>
      rw [hocc] at hfind
      simp [combineOcc] at hfind
    | o0 :: rest =>
      rw [hocc] at hfind
      have hfold : rest.foldl mergeEndpoint o0 = ep := by
        have : combineOcc none (o0 :: rest) =
            some (rest.foldl mergeEndpoint o0) := rfl
        rw [this] at hfind
        exact Option.some_inj.mp hfind
      have ho0mem : o0 ∈ occurrencesOf reports k := by rw [hocc]; simp
      have hrestmem : ∀ o ∈ rest, o ∈ occurrencesOf reports k := by
        intro o ho
        rw [hocc]
        exact List.mem_cons_of_mem o0 ho
      have hqk := foldl_mergeEndpoint_queryKeys rest o0
        (hocc_q o0 ho0mem).1 (hocc_q o0 ho0mem).2
      refine ⟨?_, ?_, ?_, ?_, ?_, ?_, ?_, ?_⟩
      · rw [← hfold, foldl_mergeEndpoint_count rest o0, List.map_cons,
          List.sum_cons]
      · intro s
        rw [← hfold,
          foldl_mergeEndpoint_countMap EndpointSummary.statuses
            (fun prev e => rfl) rest o0 s,
          List.map_cons, List.sum_cons]
        congr 1
        exact congrArg List.sum (List.map_congr_left (fun o ho =>
          sumCount_eq_getCount (hocc_kv o (hrestmem o ho)).1 s))
      · intro s
        rw [← hfold,
          foldl_mergeEndpoint_countMap EndpointSummary.mimeReq
            (fun prev e => rfl) rest o0 s,
          List.map_cons, List.sum_cons]
        congr 1
        exact congrArg List.sum (List.map_congr_left (fun o ho =>
          sumCount_eq_getCount (hocc_kv o (hrestmem o ho)).2.1 s))
      · intro s
        rw [← hfold,
          foldl_mergeEndpoint_countMap EndpointSummary.mimeRes
            (fun prev e => rfl) rest o0 s,
          List.map_cons, List.sum_cons]
        congr 1
        exact congrArg List.sum (List.map_congr_left (fun o ho =>
          sumCount_eq_getCount (hocc_kv o (hrestmem o ho)).2.2 s))
      · intro o0' rest' heq
        injection heq with h1 _
        subst h1
        rw [← hfold, foldl_mergeEndpoint_sample rest o0]
      · intro q
        rw [← hfold, hqk.1 q]
        constructor
        · rintro (h | ⟨o, ho, hqo⟩)
          · exact ⟨o0, List.mem_cons_self o0 rest, h⟩
          · exact ⟨o, List.mem_cons_of_mem o0 ho, hqo⟩
        · rintro ⟨o, ho, hqo⟩
          rcases List.mem_cons.mp ho with h | h
          · subst h
            exact Or.inl hqo
          · exact Or.inr ⟨o, h, hqo⟩
      · rw [← hfold]
        exact hqk.2.1
      · rw [← hfold]
        exact hqk.2.2
  · intro hne
    match hocc : occurrencesOf reports k with
    | [] => exact absurd hocc hne
    | o0 :: rest =>
      have hfind : findEp (mergeAll reports) k =
          some (rest.foldl mergeEndpoint o0) := by
        rw [hchar, hocc]
        rfl
      unfold findEp at hfind
      have hmem : rest.foldl mergeEndpoint o0 ∈ mergeAll reports :=
        List.mem_of_find?_eq_some hfind
      have hkey : (rest.foldl mergeEndpoint o0).key = k := by
        have := List.find?_some hfind
        simpa using this
      exact ⟨rest.foldl mergeEndpoint o0, hperm.mem_iff.mpr hmem, hkey⟩
  · intro now2 pairs
    unfold buildRouteCatalogCore
    exact insertionSortBy_pairwise
      (fun (a b : RouteReport) => strLe_total a.routeKey b.routeKey)
      (fun (a b c : RouteReport) hab hbc => strLe_trans hab hbc) _

/-- A concrete endpoint summary for exercising the merge. -/
def c7wEp1 : EndpointSummary :=
  { key := str "GET h /x"
    method := str "GET"
    host := str "h"
    path := str "/x"
    count := 2
    statuses := [(str "200", 2)]
    queryKeys := [str "a"]
    mimeReq := []
    mimeRes := [(str "application/json", 2)]
    sample := none }

/-- A second summary for the same key with different counters. -/
def c7wEp2 : EndpointSummary :=
  { c7wEp1 with
    count := 3
    statuses := [(str "200", 1), (str "404", 2)]
    queryKeys := [str "b"]
    mimeRes := [(str "text/html", 3)] }

/-- A concrete route report holding the first endpoint. -/
def c7wR1 : RouteReport :=
  { routeKey := str "r"
    sessionId := str "s1"
    createdAt := 0
    totalLogs := 2
    endpoints := [c7wEp1] }

/-- A second report for the same route holding the second endpoint. -/
def c7wR2 : RouteReport :=
  { c7wR1 with
    sessionId := str "s2"
    endpoints := [c7wEp2] }

/-- **C7 witness.** The merge/catalog theorem instantiated at the two
concrete reports above, which share the key "GET h /x"; both
well-formedness hypotheses are discharged by computation. -/
theorem c7_merge_catalog_witness :
    (∀ r ∈ [c7wR1, c7wR2], ∀ e ∈ r.endpoints,
      e.queryKeys.Pairwise (fun a b => strLe a b = true) ∧
        e.queryKeys.Nodup) ∧
    (∀ r ∈ [c7wR1, c7wR2], ∀ e ∈ r.endpoints,
      (e.statuses.map Prod.fst).Nodup ∧ (e.mimeReq.map Prod.fst).Nodup ∧
        (e.mimeRes.map Prod.fst).Nodup) ∧
    ((∀ ep ∈ (mergeReports 0 (str "r") [c7wR1, c7wR2]).endpoints,
      ep.key = str "GET h /x" →
      ep.count = ((occurrencesOf [c7wR1, c7wR2] (str "GET h /x")).map
        EndpointSummary.count).sum ∧
      (∀ s, getCount ep.statuses s =
        ((occurrencesOf [c7wR1, c7wR2] (str "GET h /x")).map
          (fun o => getCount o.statuses s)).sum) ∧
      (∀ s, getCount ep.mimeReq s =
        ((occurrencesOf [c7wR1, c7wR2] (str "GET h /x")).map
          (fun o => getCount o.mimeReq s)).sum) ∧
      (∀ s, getCount ep.mimeRes s =
        ((occurrencesOf [c7wR1, c7wR2] (str "GET h /x")).map
          (fun o => getCount o.mimeRes s)).sum) ∧
      (∀ o0 rest,
        occurrencesOf [c7wR1, c7wR2] (str "GET h /x") = o0 :: rest →
        ep.sample = o0.sample) ∧
      (∀ q, q ∈ ep.queryKeys ↔
        ∃ o ∈ occurrencesOf [c7wR1, c7wR2] (str "GET h /x"),
          q ∈ o.queryKeys) ∧
      ep.queryKeys.Pairwise (fun a b => strLe a b = true) ∧
      ep.queryKeys.Nodup) ∧
    (occurrencesOf [c7wR1, c7wR2] (str "GET h /x") ≠ [] →
      ∃ ep ∈ (mergeReports 0 (str "r") [c7wR1, c7wR2]).endpoints,
        ep.key = str "GET h /x") ∧
    (∀ (now2 : Nat) (pairs : List (Str × RouteReport)),
      (buildRouteCatalogCore now2 pairs).Pairwise
        (fun a b => strLe a.routeKey b.routeKey = true))) :=
  ⟨by decide, by decide,
    c7_merge_catalog 0 (str "r") [c7wR1, c7wR2] (str "GET h /x")
      (by decide) (by decide)⟩

end HarTool
